import Mathlib

/-!
Verification of the path sandbox, tool-call orchestration loop, suggestion
generation and weather tool of the code-editing-agent repository.

The Go code is shallowly embedded:
* `path/filepath` functions (`Clean`, `Join`, `Dir`, `Base`, `Rel`,
  `IsAbs`, `EvalSymlinks`) are modelled at the character level over
  `String.data`, for the Unix separator `'/'` that the repository runs on.
* The filesystem is an explicit finite map from absolute cleaned paths to
  nodes (file, directory, or symlink), and `EvalSymlinks` is the
  component-by-component walk of Go's `walkSymlinks`, with the 255-link
  budget made an explicit fuel argument.
* `PathSandbox.Resolve`, `suggestFiles`, `formatSuggestions` follow
  `sandbox.go`; the orchestrator (`streamModelResponse`,
  `executeToolCalls`, the loop body of `processStreamWithTools`) follows
  `errors.go`; `getWeather` and `getStringArg` follow `tools.go`.
-/

deriving instance DecidableEq for Except

namespace AgentSpec

/-! ## Character-level string helpers (models of Go `strings` functions) -/

/-- Model of `strings.TrimSpace` (ASCII whitespace suffices for the spec's
paths): drop whitespace from both ends of the character data. -/
def strTrim (s : String) : String :=
  ⟨(((s.data.dropWhile Char.isWhitespace).reverse.dropWhile Char.isWhitespace).reverse)⟩

/-- Model of `strings.ToLower`. -/
def strToLower (s : String) : String := ⟨s.data.map Char.toLower⟩

/-- Model of `strings.HasPrefix s pre`. -/
def strHasPrefix (s pre : String) : Bool := pre.data.isPrefixOf s.data

/-- Model of `strings.Contains hay needle` on character data. -/
def containsSub : List Char → List Char → Bool
  | hay, needle =>
    if needle.isPrefixOf hay then true
    else
      match hay with
      | [] => false
      | _ :: t => containsSub t needle

/-! ## `path/filepath` models (Unix separator) -/

/-- Split a character list on the separator `'/'`.  Always returns a
non-empty list of separator-free groups. -/
def splitOnSep : List Char → List (List Char)
  | [] => [[]]
  | c :: cs =>
    let r := splitOnSep cs
    if c = '/' then [] :: r
    else
      match r with
      | g :: gs => (c :: g) :: gs
      | [] => [[c]]

/-- Keep the non-empty separator groups, as strings. -/
def groupsToSegs : List (List Char) → List String
  | [] => []
  | [] :: gs => groupsToSegs gs
  | (c :: g) :: gs => (⟨c :: g⟩ : String) :: groupsToSegs gs

/-- The non-empty path components of a string, in order. -/
def segsOf (p : String) : List String := groupsToSegs (splitOnSep p.data)

/-- Model of `filepath.IsAbs` on Unix: `strings.HasPrefix(path, "/")`. -/
def isAbs (p : String) : Bool := strHasPrefix p "/"

/-- Join segments with `'/'` (model of `strings.Join(elems, "/")`). -/
def joinSegs : List String → String
  | [] => ""
  | [s] => s
  | s :: rest => s ++ "/" ++ joinSegs rest

/-- The backtracking core of `filepath.Clean`: process the components,
dropping `"."`, and resolving `".."` against the output so far (`acc`,
kept reversed).  When `rooted`, a `".."` at the top is dropped; otherwise
it is kept. -/
def cleanSegsAux (rooted : Bool) : List String → List String → List String
  | acc, [] => acc.reverse
  | acc, s :: rest =>
    if s = "." then cleanSegsAux rooted acc rest
    else if s = ".." then
      match acc with
      | [] => if rooted then cleanSegsAux rooted [] rest else cleanSegsAux rooted [".."] rest
      | a :: tl =>
        if a = ".." then cleanSegsAux rooted (".." :: a :: tl) rest
        else cleanSegsAux rooted tl rest
    else cleanSegsAux rooted (s :: acc) rest

/-- Model of `filepath.Clean` (Unix). -/
def clean (p : String) : String :=
  if p = "" then "."
  else
    let rooted := isAbs p
    let out := cleanSegsAux rooted [] (segsOf p)
    if rooted then "/" ++ joinSegs out
    else if out = [] then "." else joinSegs out

/-- Model of `filepath.Join(a, b)`: non-empty elements joined with `"/"`,
then cleaned; all-empty input gives `""`. -/
def fpJoin (a b : String) : String :=
  if a = "" && b = "" then ""
  else if a = "" then clean b
  else if b = "" then clean a
  else clean (a ++ "/" ++ b)

/-- Model of `filepath.Dir`: everything up to and including the final
separator, cleaned (`"."` when there is no separator). -/
def dirPath (p : String) : String :=
  clean ⟨(p.data.reverse.dropWhile (fun c => c ≠ '/')).reverse⟩

/-- Model of `filepath.Base`: the last element after trailing separators
are removed (`"."` for the empty path, `"/"` for all-separator paths). -/
def basePath (p : String) : String :=
  if p = "" then "."
  else
    let t := (p.data.reverse.dropWhile (fun c => c = '/')).reverse
    if t = [] then "/"
    else ⟨(t.reverse.takeWhile (fun c => c ≠ '/')).reverse⟩

/-- Length of the longest common prefix of two segment lists. -/
def commonPrefixLen : List String → List String → Nat
  | a :: as1, b :: bs1 => if a = b then commonPrefixLen as1 bs1 + 1 else 0
  | _, _ => 0

/-- Model of `filepath.Rel(base, targ)` (Unix, no volumes): both are
cleaned; rootedness must agree; after the common prefix, a leading `".."`
base component is an error, otherwise the result climbs with `".."` and
descends into the target remainder. -/
def relPath (base targ : String) : Option String :=
  let b := clean base
  let t := clean targ
  if b = t then some "."
  else
    let b1 := if b = "." then "" else b
    let t1 := if t = "." then "" else t
    if isAbs b1 ≠ isAbs t1 then none
    else
      let bs := segsOf b1
      let ts := segsOf t1
      let n := commonPrefixLen bs ts
      let remB := bs.drop n
      let remT := ts.drop n
      if remB.head? = some ".." then none
      else
        let rs := List.replicate remB.length ".." ++ remT
        if rs = [] then some "." else some (joinSegs rs)

/-- The absolute path denoted by a list of components: `"/"` when empty. -/
def segsToPath (segs : List String) : String := "/" ++ joinSegs segs

/-! ## Filesystem model and `filepath.EvalSymlinks` -/

/-- A filesystem node: regular file, directory, or symbolic link with its
target string (absolute or relative, exactly as stored on disk). -/
inductive FSNode where
  | file
  | dir
  | symlink (target : String)
deriving DecidableEq

/-- A filesystem: a finite association of absolute cleaned paths (the root
directory `"/"` is implicit) to nodes. -/
abbrev FS := List (String × FSNode)

/-- Look a path up in the filesystem (model of one `lstat`). -/
def FS.lookup (fs : FS) (p : String) : Option FSNode :=
  (fs.find? fun e => e.1 = p).map (·.2)

/-- One symlink-free stretch of the component walk of Go's
`filepath.EvalSymlinks` (`walkSymlinks`): `dest` is the already-resolved
prefix as a component list, `segs` the components still to process.
Empty and `"."` components are skipped, `".."` pops the resolved prefix
lexically, every other component must exist.  The stretch ends with a
final answer (`Sum.inl`), or at a symbolic link whose target is spliced
in front of the remaining components — restarting from the root for
absolute targets — handing the new state back (`Sum.inr`). -/
def walkStep (fs : FS) : List String → List String →
    Option (List String) ⊕ (List String × List String)
  | dest, [] => .inl (some dest)
  | dest, s :: rest =>
    if s = "" then walkStep fs dest rest
    else if s = "." then walkStep fs dest rest
    else if s = ".." then walkStep fs dest.dropLast rest
    else
      match fs.lookup (segsToPath (dest ++ [s])) with
      | none => .inl none
      | some .file => .inl (if rest.isEmpty then some (dest ++ [s]) else none)
      | some .dir => walkStep fs (dest ++ [s]) rest
      | some (.symlink t) =>
        .inr (if isAbs t then ([], segsOf t ++ rest) else (dest, segsOf t ++ rest))

/-- The full walk of `walkSymlinks`: each symbolic-link resolution
consumes one unit of the link budget `fuel` (Go allows 255). -/
def walk (fs : FS) : Nat → List String → List String → Option (List String)
  | fuel, dest, segs =>
    match walkStep fs dest segs with
    | .inl r => r
    | .inr st =>
      match fuel with
      | 0 => none
      | f + 1 => walk fs f st.1 st.2

/-- Model of `filepath.EvalSymlinks` for the absolute inputs `Resolve`
produces (the sandbox root is absolute, so every candidate handed to
`EvalSymlinks` is absolute). -/
def evalSymlinks (fs : FS) (p : String) : Option String :=
  if isAbs p then (walk fs 255 [] (segsOf p)).map segsToPath else none

/-! ## The sandbox (`sandbox.go`) -/

/-- `PathAccess` from `sandbox.go`. -/
inductive PathAccess where
  | readFile
  | writeFile
  | listDir
deriving DecidableEq

/-- `SandboxError` from `sandbox.go`. -/
structure SandboxError where
  code : String
  message : String
  suggestions : List String
deriving DecidableEq

/-- Lexicographic order on character data (byte order of Go's
`sort.Strings` for the ASCII names the spec exercises). -/
def lexLe : List Char → List Char → Bool
  | [], _ => true
  | _ :: _, [] => false
  | a :: as1, b :: bs1 => if a = b then lexLe as1 bs1 else decide (a < b)

/-- Insert into a `lexLe`-sorted list of strings. -/
def insertSorted (x : String) : List String → List String
  | [] => [x]
  | y :: ys => if lexLe x.data y.data then x :: y :: ys else y :: insertSorted x ys

/-- Sort strings lexicographically (model of `sort.Strings`, which
`filepath.Glob` applies to its matches). -/
def sortStrings : List String → List String
  | [] => []
  | x :: xs => insertSorted x (sortStrings xs)

/-- Model of `filepath.Glob(filepath.Join(parentDir, "*"))`: the existing
direct children of `parentDir`, sorted (Go's glob checks `*` against any
separator-free name, dotfiles included, and sorts its results). -/
def globChildren (fs : FS) (parentDir : String) : List String :=
  sortStrings ((fs.map (·.1)).filter fun p => dirPath p = parentDir && p ≠ "/")

/-- `formatSuggestions` from `sandbox.go`: wrap at most three names. -/
def formatSuggestions (names : List String) : List String :=
  (names.take 3).map fun n => "Did you mean \'" ++ n ++ "\'?"

/-- The first loop of `suggestFiles`: collect case-insensitive prefix
matching names, returning the formatted result early once three are found
(`Sum.inl`), otherwise the names collected so far (`Sum.inr`). -/
def prefixPass (lowBase : String) : List String → List String → List String ⊕ List String
  | ms0, [] => Sum.inr ms0
  | ms0, n :: rest =>
    if strHasPrefix (strToLower n) lowBase then
      if 3 ≤ (ms0 ++ [n]).length then Sum.inl (formatSuggestions (ms0 ++ [n]))
      else prefixPass lowBase (ms0 ++ [n]) rest
    else prefixPass lowBase ms0 rest

/-- The second loop of `suggestFiles`: collect case-insensitive substring
matching names not already collected, with the same early return at three. -/
def substrPass (lowBase : String) : List String → List String → List String ⊕ List String
  | ms0, [] => Sum.inr ms0
  | ms0, n :: rest =>
    if containsSub (strToLower n).data lowBase.data && !(ms0.contains n) then
      if 3 ≤ (ms0 ++ [n]).length then Sum.inl (formatSuggestions (ms0 ++ [n]))
      else substrPass lowBase (ms0 ++ [n]) rest
    else substrPass lowBase ms0 rest

/-- The matching logic of `suggestFiles` over the sibling names. -/
def suggestNames (names : List String) (baseName : String) : List String :=
  let lowBase := strToLower baseName
  match prefixPass lowBase [] names with
  | .inl r => r
  | .inr ms =>
    match substrPass lowBase ms names with
    | .inl r => r
    | .inr ms1 => if ms1.isEmpty then [] else formatSuggestions ms1

/-- `suggestFiles` from `sandbox.go`: up to three suggestions drawn from
the entries of the missing path's parent directory. -/
def suggestFiles (fs : FS) (path : String) : List String :=
  let parentDir := dirPath path
  let baseName := basePath path
  let names := (globChildren fs parentDir).map basePath
  suggestNames names baseName

/-- The candidate absolute path `Resolve` forms in its steps 2–3: clean the
user path, join onto the root unless already absolute, then `filepath.Abs`
(which on the already-absolute candidate is `Clean`). -/
def candidateAbsOf (root userPath : String) : String :=
  let cl := clean userPath
  clean (if isAbs cl then cl else fpJoin root cl)

/-- The `permission_denied` rejection built at `sandbox.go` lines 113–119. -/
def permissionDeniedError (userPath : String) : SandboxError :=
  { code := "permission_denied"
  , message := "path escapes project root: " ++ userPath
  , suggestions :=
      ["Use a relative path under the project root (e.g., \'./subdir/file.txt\')"] }

/-- The containment check of `Resolve` step 5 (`sandbox.go` lines
110–120), shared verbatim by all access kinds. -/
def rootCheck (root userPath candidateReal : String) : Except SandboxError String :=
  match relPath root candidateReal with
  | none => .error (permissionDeniedError userPath)
  | some rel =>
    if rel = ".." || strHasPrefix rel "../" then .error (permissionDeniedError userPath)
    else .ok candidateReal

/-- `PathSandbox.Resolve` from `sandbox.go`.  The `Root` field is the
`root` argument; the filesystem is explicit. -/
def Resolve (fs : FS) (root userPath : String) (access : PathAccess) :
    Except SandboxError String :=
  if strTrim userPath = "" then
    .error { code := "invalid_argument", message := "path cannot be empty", suggestions := [] }
  else
    let candidateAbs := candidateAbsOf root userPath
    match access with
    | .readFile | .listDir =>
      match evalSymlinks fs candidateAbs with
      | none =>
        .error { code := "not_found"
               , message := "path not found: " ++ userPath
               , suggestions := suggestFiles fs candidateAbs }
      | some real => rootCheck root userPath real
    | .writeFile =>
      match evalSymlinks fs candidateAbs with
      | some real => rootCheck root userPath real
      | none =>
        let parentAbs := dirPath candidateAbs
        match evalSymlinks fs parentAbs with
        | none =>
          .error { code := "not_found"
                 , message := "parent directory not found: " ++ dirPath userPath
                 , suggestions := suggestFiles fs parentAbs }
        | some parentReal => rootCheck root userPath (fpJoin parentReal (basePath candidateAbs))

/-! ## Tool results and the turn orchestrator (`errors.go`, `tools.go`) -/

/-- A JSON-like value (`map[string]any` payloads, `genai` argument and
response values). -/
inductive JVal where
  | bool (b : Bool)
  | str (s : String)
  | num (n : Int)
  | arr (xs : List JVal)
  | obj (fields : List (String × JVal))

/-- `ToolError` from `errors.go`. -/
structure ToolError where
  code : String
  message : String
  suggestions : List String

/-- `ToolResult` from `errors.go`. -/
structure ToolResult where
  ok : Bool
  data : Option (List (String × JVal))
  error : Option ToolError

/-- `ToolResult.AsMap` from `errors.go`: the wire shape handed back to the
model as a `FunctionResponse` payload. -/
def ToolResult.asMap (r : ToolResult) : List (String × JVal) :=
  [("ok", .bool r.ok)]
    ++ (match r.data with
        | some d => [("data", .obj d)]
        | none => [])
    ++ (match r.error with
        | some e =>
          [("error", .obj [ ("code", .str e.code)
                          , ("message", .str e.message)
                          , ("suggestions", .arr (e.suggestions.map .str))])]
        | none => [])

/-- `genai.FunctionCall`: a tool name and its argument mapping. -/
structure FunctionCall where
  name : String
  args : List (String × JVal)

/-- `genai.FunctionResponse`. -/
structure FunctionResponse where
  name : String
  response : List (String × JVal)

/-- `genai.Part`: a streamed content piece, possibly carrying text, a
function call, or a function response. -/
structure Part where
  text : String
  functionCall : Option FunctionCall
  functionResponse : Option FunctionResponse

/-- `genai.Content`: one history entry, a role plus its parts. -/
structure Content where
  role : String
  parts : List Part

/-- One iteration of the transport stream of `streamModelResponse`: a
transport error, or a response that may lack candidates (`none`), or the
parts of the first candidate. -/
abbrev StreamItem := Except String (Option (List Part))

/-- A transport stream: the finite fragment sequence of one model
invocation. -/
abbrev Stream := List StreamItem

/-- The fold of `streamModelResponse` over the fragment stream: `parts`
and `calls` are the accumulators `allParts` and `allCalls`.  An error
fragment aborts immediately; candidate-less responses are skipped; each
part is appended to the merged parts and its function call, if any, is
collected. -/
def streamAux : Stream → List Part → List FunctionCall →
    Except String (Content × List FunctionCall)
  | [], parts, calls => .ok ({ role := "model", parts := parts }, calls)
  | .error e :: _, _, _ => .error ("stream error: " ++ e)
  | .ok none :: rest, parts, calls => streamAux rest parts calls
  | .ok (some ps) :: rest, parts, calls =>
    streamAux rest (parts ++ ps) (calls ++ ps.filterMap (·.functionCall))

/-- `streamModelResponse` from `errors.go`: merge the whole fragment
sequence into one model-role content plus the collected function calls,
or fail on the first transport error. -/
def streamModelResponse (s : Stream) : Except String (Content × List FunctionCall) :=
  streamAux s [] []

/-- `executeToolCalls` from `errors.go`: execute the calls in order and
wrap each result as a `FunctionResponse` part (`exec` abstracts
`executeTool` with its sandbox and debug flag fixed). -/
def executeToolCalls (exec : FunctionCall → ToolResult) (calls : List FunctionCall) :
    List Part :=
  calls.map fun call =>
    { text := ""
    , functionCall := none
    , functionResponse := some { name := call.name, response := (exec call).asMap } }

/-- Outcome of one iteration of the `processStreamWithTools` loop. -/
inductive RoundOutcome where
  | fatal (e : String)
  | finished
  | toolsExecuted (calls : List FunctionCall)

/-- The loop body of `processStreamWithTools` from `errors.go`, acting on
the history: a stream error returns it with the history untouched;
otherwise the merged model content is appended, and if there were tool
calls a single user-role entry holding all the function responses is
appended after it and the loop would re-invoke the model. -/
def runRound (exec : FunctionCall → ToolResult) (history : List Content) (s : Stream) :
    List Content × RoundOutcome :=
  match streamModelResponse s with
  | .error e => (history, .fatal e)
  | .ok (modelContent, calls) =>
    if calls.isEmpty then (history ++ [modelContent], .finished)
    else
      (history ++ [modelContent, { role := "user", parts := executeToolCalls exec calls }],
       .toolsExecuted calls)

/-- The parts carried by one stream fragment (none for errors or
candidate-less responses). -/
def fragParts : StreamItem → List Part
  | .ok (some ps) => ps
  | _ => []

/-- All content parts of a stream in arrival order. -/
def mergedParts (s : Stream) : List Part := (s.map fragParts).flatten

/-- All function calls of a stream in arrival order. -/
def collectedCalls (s : Stream) : List FunctionCall :=
  (mergedParts s).filterMap (·.functionCall)

/-- Concatenated text of a list of parts, in order. -/
def concatText : List Part → String
  | [] => ""
  | p :: ps => p.text ++ concatText ps

/-- Concatenation of all text fragments of a stream, fragment by
fragment, in arrival order. -/
def streamTextConcat : Stream → String
  | [] => ""
  | x :: rest => concatText (fragParts x) ++ streamTextConcat rest

/-- Whether a stream fragment is a transport error. -/
def isErrFrag : StreamItem → Bool
  | .error _ => true
  | _ => false

/-! ## The weather tool (`tools.go`) -/

/-- `getStringArg` from `tools.go`: fetch a required string argument. -/
def getStringArg (args : List (String × JVal)) (key : String) : Except String String :=
  match args.find? (fun kv => kv.1 = key) with
  | none => .error ("missing argument: " ++ key)
  | some (_, .str v) => .ok v
  | some _ => .error ("argument " ++ key ++ " must be a string")

/-- The latitude literal hardcoded in `getWeather` (redacted in the
source; its exact digits never matter, only that it is a constant). -/
def weatherLat : String := "LAT"

/-- The longitude literal hardcoded in `getWeather`. -/
def weatherLon : String := "LON"

/-- The request URL `getWeather` builds with `fmt.Sprintf` from the two
hardcoded coordinate constants. -/
def weatherURL : String :=
  "https://api.open-meteo.com/v1/forecast?latitude=" ++ weatherLat
    ++ "&longitude=" ++ weatherLon ++ "&current_weather=true"

/-- What `getWeather` decides to do before touching the network. -/
inductive WeatherAction where
  | invalidArgument (message : String)
  | fetch (url : String)
deriving DecidableEq

/-- The request-construction phase of `getWeather` from `tools.go`:
validate the `location` argument, then fetch `weatherURL`.  The source
compares `location` against one hardcoded city in an `if` whose body is
empty (a comment), so the validated value never influences the URL. -/
def getWeatherRequest (args : List (String × JVal)) : WeatherAction :=
  match getStringArg args "location" with
  | .error msg => .invalidArgument msg
  | .ok _location => .fetch weatherURL

/-! ## Specification-side predicates -/

/-- A plain path component: non-empty, not a dot component, and free of
the separator. -/
def GoodSeg (s : String) : Prop :=
  s ≠ "" ∧ s ≠ "." ∧ s ≠ ".." ∧ '/' ∉ s.data

instance (s : String) : Decidable (GoodSeg s) := by unfold GoodSeg; infer_instance

/-- Containment in the sandbox root: after cleaning, the root's
components are a prefix of the path's components.  This is the intended
meaning of "contained in or equal to Root". -/
def containedIn (root p : String) : Prop :=
  segsOf (clean root) <+: segsOf (clean p)

instance (root p : String) : Decidable (containedIn root p) := by
  unfold containedIn; infer_instance

/-- All non-empty component prefixes of a component list, shortest
first. -/
def prefixesNE (segs : List String) : List (List String) :=
  (List.range segs.length).map fun i => segs.take (i + 1)

/-- Whether an optional filesystem node is a symbolic link. -/
def isSymlinkNode : Option FSNode → Bool
  | some (.symlink _) => true
  | _ => false

/-- A component list is fully symlink-resolved in `fs` when no prefix of
it names a symbolic link. -/
def fullyResolved (fs : FS) (segs : List String) : Bool :=
  (prefixesNE segs).all fun q => !(isSymlinkNode (fs.lookup (segsToPath q)))

/-! ## Concrete filesystems and streams used in witnesses -/

/-- A workspace with one file, plus a secret outside it. -/
def fsBasic : FS := [("/ws", .dir), ("/ws/a.txt", .file), ("/secret.txt", .file)]

/-- A root containing a dangling symbolic link whose target lies outside
the root (`/outside/new` does not exist). -/
def fsDangling : FS :=
  [("/root", .dir), ("/root/link", .symlink "/outside/new"), ("/outside", .dir)]

/-- A root whose subdirectory entry is a symbolic link to a directory
outside the root. -/
def fsLinkedParent : FS :=
  [("/root", .dir), ("/root/dir", .symlink "/outside"), ("/outside", .dir)]

/-- A workspace containing a directory whose name merely begins with the
two characters `".."`. -/
def fsDotCache : FS :=
  [("/ws", .dir), ("/ws/..cache", .dir), ("/ws/..cache/file", .file)]

/-- A workspace with several candidate names for suggestions. -/
def fsNames : FS :=
  [("/ws", .dir), ("/ws/present.txt", .file), ("/ws/pres.md", .file), ("/ws/zz.txt", .file)]

/-- A sample fragment stream with no transport error: text split across
fragments, one candidate-less response, and two function calls. -/
def sampleStream : Stream :=
  [ .ok (some [{ text := "Hel", functionCall := none, functionResponse := none }])
  , .ok none
  , .ok (some
      [ { text := "lo", functionCall := none, functionResponse := none }
      , { text := ""
        , functionCall := some { name := "read_file", args := [("path", .str "a.txt")] }
        , functionResponse := none }
      , { text := ""
        , functionCall := some { name := "list_files", args := [("path", .str ".")] }
        , functionResponse := none } ]) ]

/-- A fragment stream interrupted by a transport error. -/
def errorStream : Stream :=
  [ .ok (some [{ text := "par", functionCall := none, functionResponse := none }])
  , .error "connection reset"
  , .ok (some [{ text := "tial", functionCall := none, functionResponse := none }]) ]

/-- A tool executor stub returning a fixed success envelope. -/
def execStub : FunctionCall → ToolResult :=
  fun _ => { ok := true, data := some [("content", .str "hi")], error := none }

/-! ## Lemmas: splitting and joining -/

theorem ne_empty_iff_data (s : String) : s ≠ "" ↔ s.data ≠ [] := by
  constructor
  · intro h hd
    exact h (String.ext hd)
  · intro h hd
    apply h
    rw [hd]

theorem mk_ne_empty (c : Char) (g : List Char) : (⟨c :: g⟩ : String) ≠ "" := by
  rw [ne_empty_iff_data]
  simp

theorem splitOnSep_ne_nil (l : List Char) : splitOnSep l ≠ [] := by
  cases l with
  | nil => simp [splitOnSep]
  | cons c cs =>
    simp only [splitOnSep]
    split
    · simp
    · split <;> simp

theorem splitOnSep_sep (cs : List Char) : splitOnSep ('/' :: cs) = [] :: splitOnSep cs := by
  simp [splitOnSep]

theorem splitOnSep_cons_ne (c : Char) (cs : List Char) (hc : c ≠ '/') (g : List Char)
    (gs : List (List Char)) (h : splitOnSep cs = g :: gs) :
    splitOnSep (c :: cs) = (c :: g) :: gs := by
  simp only [splitOnSep, h, if_neg hc]

theorem splitOnSep_sepfree (l : List Char) (h : '/' ∉ l) : splitOnSep l = [l] := by
  induction l with
  | nil => rfl
  | cons c cs ih =>
    have hc : c ≠ '/' := fun hc => h (hc ▸ List.mem_cons_self c cs)
    have ih2 := ih (fun hm => h (List.mem_cons_of_mem c hm))
    exact splitOnSep_cons_ne c cs hc cs [] ih2

theorem splitOnSep_append_sep (w : List Char) (hw : '/' ∉ w) (l : List Char) :
    splitOnSep (w ++ '/' :: l) = w :: splitOnSep l := by
  induction w with
  | nil => exact splitOnSep_sep l
  | cons c cs ih =>
    have hc : c ≠ '/' := fun hc => hw (hc ▸ List.mem_cons_self c cs)
    have ih2 := ih (fun hm => hw (List.mem_cons_of_mem c hm))
    exact splitOnSep_cons_ne c (cs ++ '/' :: l) hc cs (splitOnSep l) ih2

theorem splitOnSep_groups_sepfree (l : List Char) : ∀ g ∈ splitOnSep l, '/' ∉ g := by
  induction l with
  | nil =>
    intro g hg
    simp [splitOnSep] at hg
    simp [hg]
  | cons c cs ih =>
    intro g hg
    by_cases hc : c = '/'
    · subst hc
      rw [splitOnSep_sep] at hg
      rcases List.mem_cons.1 hg with h1 | h1
      · simp [h1]
      · exact ih g h1
    · obtain ⟨g0, gs, hsplit⟩ : ∃ g0 gs, splitOnSep cs = g0 :: gs := by
        cases hs : splitOnSep cs with
        | nil => exact absurd hs (splitOnSep_ne_nil cs)
        | cons a as => exact ⟨a, as, rfl⟩
      rw [splitOnSep_cons_ne c cs hc g0 gs hsplit] at hg
      rcases List.mem_cons.1 hg with h1 | h1
      · subst h1
        intro hmem
        rcases List.mem_cons.1 hmem with h2 | h2
        · exact hc h2.symm
        · exact ih g0 (hsplit ▸ List.mem_cons_self g0 gs) h2
      · exact ih g (hsplit ▸ List.mem_cons_of_mem g0 h1)

theorem splitOnSep_trailing (l : List Char) :
    splitOnSep (l ++ ['/']) = splitOnSep l ++ [[]] := by
  induction l with
  | nil => rfl
  | cons c cs ih =>
    by_cases hc : c = '/'
    · subst hc
      rw [List.cons_append, splitOnSep_sep, splitOnSep_sep, ih]
      rfl
    · obtain ⟨g0, gs, hsplit⟩ : ∃ g0 gs, splitOnSep cs = g0 :: gs := by
        cases hs : splitOnSep cs with
        | nil => exact absurd hs (splitOnSep_ne_nil cs)
        | cons a as => exact ⟨a, as, rfl⟩
      have h2 : splitOnSep (cs ++ ['/']) = g0 :: (gs ++ [[]]) := by
        rw [ih, hsplit]
        rfl
      rw [List.cons_append, splitOnSep_cons_ne c (cs ++ ['/']) hc g0 (gs ++ [[]]) h2,
        splitOnSep_cons_ne c cs hc g0 gs hsplit]
      rfl

theorem groupsToSegs_append (gs1 gs2 : List (List Char)) :
    groupsToSegs (gs1 ++ gs2) = groupsToSegs gs1 ++ groupsToSegs gs2 := by
  induction gs1 with
  | nil => rfl
  | cons g gs ih =>
    cases g with
    | nil => simpa [groupsToSegs] using ih
    | cons c cg => simp [groupsToSegs, ih]

theorem groupsToSegs_mem_sfree (gs : List (List Char)) (h : ∀ g ∈ gs, '/' ∉ g) :
    ∀ s ∈ groupsToSegs gs, s ≠ "" ∧ '/' ∉ s.data := by
  induction gs with
  | nil => simp [groupsToSegs]
  | cons g tl ih =>
    have htl : ∀ g2 ∈ tl, '/' ∉ g2 := fun g2 hg2 => h g2 (List.mem_cons_of_mem g hg2)
    cases g with
    | nil =>
      simpa [groupsToSegs] using ih htl
    | cons c cg =>
      intro s hs
      rw [groupsToSegs] at hs
      rcases List.mem_cons.1 hs with h1 | h1
      · subst h1
        exact ⟨mk_ne_empty c cg, h (c :: cg) (List.mem_cons_self _ _)⟩
      · exact ih htl s h1

theorem segsOf_mem_sfree (p : String) : ∀ s ∈ segsOf p, s ≠ "" ∧ '/' ∉ s.data :=
  groupsToSegs_mem_sfree (splitOnSep p.data) (splitOnSep_groups_sepfree p.data)

theorem data_eta (s : String) : (⟨s.data⟩ : String) = s := rfl

theorem data_mk (l : List Char) : (⟨l⟩ : String).data = l := rfl

theorem isAbs_cons (c : Char) (r : List Char) :
    isAbs (⟨c :: r⟩ : String) = (c = '/' : Bool) := by
  rw [isAbs, strHasPrefix, data_mk, show ("/" : String).data = ['/'] from rfl]
  simp only [List.isPrefixOf, Bool.and_true]
  by_cases hc : c = '/'
  · subst hc
    simp
  · simp [hc, Ne.symm hc]

theorem segsToPath_data (segs : List String) :
    (segsToPath segs).data = '/' :: (joinSegs segs).data := by
  rw [segsToPath, String.data_append]
  rfl

theorem isAbs_segsToPath (segs : List String) : isAbs (segsToPath segs) = true := by
  have h : segsToPath segs = (⟨'/' :: (joinSegs segs).data⟩ : String) := by
    apply String.ext
    rw [segsToPath_data, data_mk]
  rw [h, isAbs_cons]
  simp

theorem segsToPath_ne_empty (segs : List String) : segsToPath segs ≠ "" := by
  rw [ne_empty_iff_data, segsToPath_data]
  simp

theorem segsToPath_ne_dot (segs : List String) : segsToPath segs ≠ "." := by
  intro h
  have hd := congrArg String.data h
  rw [segsToPath_data] at hd
  have : '/' = '.' := by
    have := List.head_eq_of_cons_eq hd
    exact this
  simp at this

theorem joinSegs_cons_cons (s s2 : String) (rest : List String) :
    joinSegs (s :: s2 :: rest) = s ++ "/" ++ joinSegs (s2 :: rest) := rfl

theorem segsOf_join_plain (segs : List String)
    (h : ∀ s ∈ segs, s ≠ "" ∧ '/' ∉ s.data) :
    groupsToSegs (splitOnSep (joinSegs segs).data) = segs := by
  induction segs with
  | nil => rfl
  | cons s rest ih =>
    have hs := h s (List.mem_cons_self _ _)
    have hrest : ∀ s2 ∈ rest, s2 ≠ "" ∧ '/' ∉ s2.data :=
      fun s2 hs2 => h s2 (List.mem_cons_of_mem s hs2)
    cases rest with
    | nil =>
      show groupsToSegs (splitOnSep s.data) = [s]
      rw [splitOnSep_sepfree s.data hs.2]
      obtain ⟨c, g, hd⟩ : ∃ c g, s.data = c :: g := by
        cases hsd : s.data with
        | nil => exact absurd (String.ext hsd) hs.1
        | cons c g => exact ⟨c, g, rfl⟩
      rw [hd, groupsToSegs]
      rw [← hd, data_eta]
      rfl
    | cons s2 rest2 =>
      rw [joinSegs_cons_cons, String.data_append, String.data_append]
      have : (s.data ++ "/".data) ++ (joinSegs (s2 :: rest2)).data =
          s.data ++ '/' :: (joinSegs (s2 :: rest2)).data := by
        simp
      rw [this, splitOnSep_append_sep s.data hs.2]
      obtain ⟨c, g, hd⟩ : ∃ c g, s.data = c :: g := by
        cases hsd : s.data with
        | nil => exact absurd (String.ext hsd) hs.1
        | cons c g => exact ⟨c, g, rfl⟩
      rw [hd, groupsToSegs, ← hd, data_eta, ih hrest]

theorem segsOf_segsToPath (segs : List String)
    (h : ∀ s ∈ segs, s ≠ "" ∧ '/' ∉ s.data) :
    segsOf (segsToPath segs) = segs := by
  rw [segsOf, segsToPath_data, splitOnSep_sep]
  show groupsToSegs (splitOnSep (joinSegs segs).data) = segs
  exact segsOf_join_plain segs h

/-! ## Lemmas: `clean` -/

theorem cleanSegsAux_nil (rooted : Bool) (acc : List String) :
    cleanSegsAux rooted acc [] = acc.reverse := rfl

theorem cleanSegsAux_cons (rooted : Bool) (acc : List String) (s : String)
    (rest : List String) :
    cleanSegsAux rooted acc (s :: rest) =
      if s = "." then cleanSegsAux rooted acc rest
      else if s = ".." then
        match acc with
        | [] => if rooted then cleanSegsAux rooted [] rest else cleanSegsAux rooted [".."] rest
        | a :: tl =>
          if a = ".." then cleanSegsAux rooted (".." :: a :: tl) rest
          else cleanSegsAux rooted tl rest
      else cleanSegsAux rooted (s :: acc) rest := rfl

theorem cleanSegsAux_nodots (rooted : Bool) (acc segs : List String)
    (h : ∀ s ∈ segs, s ≠ "." ∧ s ≠ "..") :
    cleanSegsAux rooted acc segs = acc.reverse ++ segs := by
  induction segs generalizing acc with
  | nil => simp [cleanSegsAux]
  | cons s rest ih =>
    have hs := h s (List.mem_cons_self _ _)
    have hrest : ∀ s2 ∈ rest, s2 ≠ "." ∧ s2 ≠ ".." :=
      fun s2 hs2 => h s2 (List.mem_cons_of_mem s hs2)
    rw [cleanSegsAux_cons, if_neg hs.1, if_neg hs.2, ih (s :: acc) hrest]
    simp

theorem cleanSegsAux_good (acc segs : List String)
    (hacc : ∀ s ∈ acc, GoodSeg s)
    (hsegs : ∀ s ∈ segs, s ≠ "" ∧ '/' ∉ s.data) :
    ∀ x ∈ cleanSegsAux true acc segs, GoodSeg x := by
  induction segs generalizing acc with
  | nil =>
    intro x hx
    rw [cleanSegsAux_nil] at hx
    exact hacc x (List.mem_reverse.1 hx)
  | cons s rest ih =>
    have hs := hsegs s (List.mem_cons_self _ _)
    have hrest : ∀ s2 ∈ rest, s2 ≠ "" ∧ '/' ∉ s2.data :=
      fun s2 hs2 => hsegs s2 (List.mem_cons_of_mem s hs2)
    intro x hx
    rw [cleanSegsAux_cons] at hx
    by_cases hdot : s = "."
    · rw [if_pos hdot] at hx
      exact ih acc hacc hrest x hx
    · rw [if_neg hdot] at hx
      by_cases hdd : s = ".."
      · rw [if_pos hdd] at hx
        cases acc with
        | nil =>
          have hx2 : x ∈ cleanSegsAux true [] rest := hx
          exact ih [] (by simp) hrest x hx2
        | cons a tl =>
          have ha : GoodSeg a := hacc a (List.mem_cons_self _ _)
          have hx2 : x ∈ (if a = ".." then cleanSegsAux true (".." :: a :: tl) rest
              else cleanSegsAux true tl rest) := hx
          rw [if_neg ha.2.2.1] at hx2
          exact ih tl (fun s2 hs2 => hacc s2 (List.mem_cons_of_mem a hs2)) hrest x hx2
      · rw [if_neg hdd] at hx
        refine ih (s :: acc) ?_ hrest x hx
        intro s2 hs2
        rcases List.mem_cons.1 hs2 with h1 | h1
        · subst h1
          exact ⟨hs.1, hdot, hdd, hs.2⟩
        · exact hacc s2 h1

theorem isAbs_empty : isAbs "" = false := rfl

theorem clean_abs (q : String) (h : isAbs q = true) :
    clean q = segsToPath (cleanSegsAux true [] (segsOf q)) := by
  have hne : q ≠ "" := by
    intro he
    rw [he] at h
    simp [isAbs_empty] at h
  rw [clean, if_neg hne]
  simp only [h, if_pos]
  rfl

theorem clean_abs_good (q : String) (h : isAbs q = true) :
    ∃ out, clean q = segsToPath out ∧ ∀ s ∈ out, GoodSeg s :=
  ⟨cleanSegsAux true [] (segsOf q), clean_abs q h,
    cleanSegsAux_good [] (segsOf q) (by simp) (segsOf_mem_sfree q)⟩

theorem goodSeg_sfree (segs : List String) (h : ∀ s ∈ segs, GoodSeg s) :
    ∀ s ∈ segs, s ≠ "" ∧ '/' ∉ s.data :=
  fun s hs => ⟨(h s hs).1, (h s hs).2.2.2⟩

theorem clean_segsToPath_good (segs : List String) (h : ∀ s ∈ segs, GoodSeg s) :
    clean (segsToPath segs) = segsToPath segs := by
  rw [clean_abs (segsToPath segs) (isAbs_segsToPath segs),
    segsOf_segsToPath segs (goodSeg_sfree segs h),
    cleanSegsAux_nodots true [] segs (fun s hs => ⟨(h s hs).2.1, (h s hs).2.2.1⟩)]
  rfl

theorem segsOf_clean_segsToPath (segs : List String) (h : ∀ s ∈ segs, GoodSeg s) :
    segsOf (clean (segsToPath segs)) = segs := by
  rw [clean_segsToPath_good segs h, segsOf_segsToPath segs (goodSeg_sfree segs h)]

theorem segsToPath_inj_good (segs1 segs2 : List String)
    (h1 : ∀ s ∈ segs1, GoodSeg s) (h2 : ∀ s ∈ segs2, GoodSeg s)
    (heq : segsToPath segs1 = segsToPath segs2) : segs1 = segs2 := by
  have := congrArg segsOf heq
  rwa [segsOf_segsToPath segs1 (goodSeg_sfree segs1 h1),
    segsOf_segsToPath segs2 (goodSeg_sfree segs2 h2)] at this

/-! ## Lemmas: `relPath` and the containment check -/

theorem commonPrefixLen_drop_nil_iff (bs ts : List String) :
    bs.drop (commonPrefixLen bs ts) = [] ↔ bs <+: ts := by
  induction bs generalizing ts with
  | nil => simp
  | cons b bs1 ih =>
    cases ts with
    | nil =>
      simp [commonPrefixLen]
    | cons t ts1 =>
      by_cases hbt : b = t
      · subst hbt
        rw [commonPrefixLen, if_pos rfl]
        simp only [List.drop_succ_cons, List.cons_prefix_cons, true_and]
        exact ih ts1
      · rw [commonPrefixLen]
        simp only [if_neg hbt, List.drop_zero, List.cons_prefix_cons]
        constructor
        · intro h
          exact absurd h (by simp)
        · intro h
          exact absurd h.1 hbt

theorem commonPrefixLen_take_eq (bs ts : List String) :
    bs.take (commonPrefixLen bs ts) = ts.take (commonPrefixLen bs ts) := by
  induction bs generalizing ts with
  | nil => simp [commonPrefixLen]
  | cons b bs1 ih =>
    cases ts with
    | nil => simp [commonPrefixLen]
    | cons t ts1 =>
      by_cases hbt : b = t
      · subst hbt
        rw [commonPrefixLen, if_pos rfl]
        simp [ih ts1]
      · rw [commonPrefixLen]
        simp [if_neg hbt]

theorem eq_of_drops_nil (bs ts : List String) (n : Nat)
    (htake : bs.take n = ts.take n) (hb : bs.drop n = []) (ht : ts.drop n = []) :
    bs = ts := by
  have h1 : bs = bs.take n ++ bs.drop n := (List.take_append_drop n bs).symm
  have h2 : ts = ts.take n ++ ts.drop n := (List.take_append_drop n ts).symm
  rw [h1, h2, hb, ht, htake]

theorem dotdot_prefix_data : ("../" : String).data = ['.', '.', '/'] := rfl

theorem joinSegs_good_ne_dotdot (g : List String) (hne : g ≠ [])
    (hgood : ∀ s ∈ g, GoodSeg s) : joinSegs g ≠ ".." := by
  cases g with
  | nil => exact absurd rfl hne
  | cons s rest =>
    have hs : GoodSeg s := hgood s (List.mem_cons_self _ _)
    cases rest with
    | nil => exact hs.2.2.1
    | cons s2 rest2 =>
      intro heq
      have hd := congrArg String.data heq
      rw [joinSegs_cons_cons, String.data_append, String.data_append] at hd
      have hmem : '/' ∈ s.data ++ "/".data ++ (joinSegs (s2 :: rest2)).data := by
        apply List.mem_append_left
        apply List.mem_append_right
        simp [show ("/" : String).data = ['/'] from rfl]
      rw [hd] at hmem
      simp [show (".." : String).data = ['.', '.'] from rfl] at hmem

theorem joinSegs_good_no_dotdot_pref (g : List String) (hne : g ≠ [])
    (hgood : ∀ s ∈ g, GoodSeg s) : strHasPrefix (joinSegs g) "../" = false := by
  rw [strHasPrefix]
  by_contra hcon
  rw [Bool.not_eq_false] at hcon
  have hpre : ("../" : String).data <+: (joinSegs g).data :=
    List.isPrefixOf_iff_prefix.1 hcon
  rw [dotdot_prefix_data] at hpre
  cases g with
  | nil => exact absurd rfl hne
  | cons s rest =>
    have hs : GoodSeg s := hgood s (List.mem_cons_self _ _)
    cases rest with
    | nil =>
      have hmem : '/' ∈ s.data := hpre.subset (by simp)
      exact hs.2.2.2 hmem
    | cons s2 rest2 =>
      obtain ⟨t, ht⟩ := hpre
      rw [joinSegs_cons_cons, String.data_append, String.data_append,
        show ("/" : String).data = ['/'] from rfl, List.append_assoc] at ht
      cases hsd : s.data with
      | nil => exact hs.1 (String.ext hsd)
      | cons c1 d1 =>
        rw [hsd] at ht
        simp only [List.cons_append, List.nil_append] at ht
        injection ht with hc1 ht1
        cases d1 with
        | nil =>
          simp only [List.nil_append] at ht1
          injection ht1 with hc2 ht2
          simp at hc2
        | cons c2 d2 =>
          simp only [List.cons_append] at ht1
          injection ht1 with hc2 ht2
          cases d2 with
          | nil =>
            apply hs.2.2.1
            apply String.ext
            rw [hsd, ← hc1, ← hc2]
          | cons c3 d3 =>
            simp only [List.nil_append, List.cons_append] at ht2
            injection ht2 with hc3 ht3
            apply hs.2.2.2
            rw [hsd, ← hc3]
            simp

theorem joinSegs_dotdot_lead (rest : List String) :
    joinSegs (".." :: rest) = ".." ∨
      strHasPrefix (joinSegs (".." :: rest)) "../" = true := by
  cases rest with
  | nil => exact Or.inl rfl
  | cons s2 rest2 =>
    right
    rw [strHasPrefix, joinSegs_cons_cons, String.data_append, String.data_append,
      show (".." : String).data = ['.', '.'] from rfl,
      show ("/" : String).data = ['/'] from rfl, dotdot_prefix_data]
    apply List.isPrefixOf_iff_prefix.2
    exact ⟨(joinSegs (s2 :: rest2)).data, by simp⟩

theorem rootCheck_of_relPath (root u cr rel : String)
    (h : relPath root cr = some rel) :
    rootCheck root u cr =
      if rel = ".." || strHasPrefix rel "../" then .error (permissionDeniedError u)
      else .ok cr := by
  rw [rootCheck, h]

theorem relPath_self (p : String) : relPath p p = some "." := by
  rw [relPath]
  simp

theorem relPath_segsToPath_pref (bs ts : List String)
    (hb : ∀ s ∈ bs, GoodSeg s) (ht : ∀ s ∈ ts, GoodSeg s)
    (hBT : segsToPath bs ≠ segsToPath ts) (hpre : bs <+: ts) :
    relPath (segsToPath bs) (segsToPath ts) =
      some (joinSegs (ts.drop (commonPrefixLen bs ts))) := by
  have hdropb : bs.drop (commonPrefixLen bs ts) = [] :=
    (commonPrefixLen_drop_nil_iff bs ts).2 hpre
  have hdropt : ts.drop (commonPrefixLen bs ts) ≠ [] := by
    intro hDT
    exact hBT (congrArg segsToPath
      (eq_of_drops_nil bs ts (commonPrefixLen bs ts)
        (commonPrefixLen_take_eq bs ts) hdropb hDT))
  rw [relPath]
  simp only [clean_segsToPath_good bs hb, clean_segsToPath_good ts ht]
  rw [if_neg hBT, if_neg (segsToPath_ne_dot bs), if_neg (segsToPath_ne_dot ts)]
  simp only [isAbs_segsToPath]
  rw [if_neg (by simp)]
  simp only [segsOf_segsToPath bs (goodSeg_sfree bs hb),
    segsOf_segsToPath ts (goodSeg_sfree ts ht)]
  rw [hdropb]
  rw [if_neg (show ¬ (List.head? ([] : List String) = some "..") by simp)]
  simp only [List.length_nil, List.replicate_zero, List.nil_append]
  rw [if_neg hdropt]

theorem relPath_segsToPath_nonpref (bs ts : List String) (r0 : String)
    (remB1 : List String)
    (hb : ∀ s ∈ bs, GoodSeg s) (ht : ∀ s ∈ ts, GoodSeg s)
    (hBT : segsToPath bs ≠ segsToPath ts)
    (hrem : bs.drop (commonPrefixLen bs ts) = r0 :: remB1) :
    relPath (segsToPath bs) (segsToPath ts) =
      some (joinSegs
        (".." :: (List.replicate remB1.length ".." ++ ts.drop (commonPrefixLen bs ts)))) := by
  have hr0 : GoodSeg r0 :=
    hb r0 (List.drop_subset _ bs (hrem ▸ List.mem_cons_self r0 remB1))
  rw [relPath]
  simp only [clean_segsToPath_good bs hb, clean_segsToPath_good ts ht]
  rw [if_neg hBT, if_neg (segsToPath_ne_dot bs), if_neg (segsToPath_ne_dot ts)]
  simp only [isAbs_segsToPath]
  rw [if_neg (by simp)]
  simp only [segsOf_segsToPath bs (goodSeg_sfree bs hb),
    segsOf_segsToPath ts (goodSeg_sfree ts ht)]
  rw [hrem]
  rw [if_neg (by simp [hr0.2.2.1] : ¬ (r0 :: remB1 : List String).head? = some "..")]
  simp only [List.length_cons, List.replicate_succ, List.cons_append]
  rw [if_neg (by simp)]

theorem rootCheck_segsToPath (bs ts : List String) (u : String)
    (hb : ∀ s ∈ bs, GoodSeg s) (ht : ∀ s ∈ ts, GoodSeg s) :
    rootCheck (segsToPath bs) u (segsToPath ts) =
      if bs <+: ts then .ok (segsToPath ts) else .error (permissionDeniedError u) := by
  by_cases hBT : segsToPath bs = segsToPath ts
  · have hbsts : bs = ts := segsToPath_inj_good bs ts hb ht hBT
    subst hbsts
    rw [rootCheck_of_relPath (segsToPath bs) u (segsToPath bs) "." (by rw [relPath_self]),
      if_pos (List.prefix_refl bs)]
    rw [if_neg (by decide)]
  · by_cases hpre : bs <+: ts
    · have hdropt : ts.drop (commonPrefixLen bs ts) ≠ [] := by
        intro hDT
        exact hBT (congrArg segsToPath
          (eq_of_drops_nil bs ts (commonPrefixLen bs ts)
            (commonPrefixLen_take_eq bs ts)
            ((commonPrefixLen_drop_nil_iff bs ts).2 hpre) hDT))
      have hgoodrem : ∀ s ∈ ts.drop (commonPrefixLen bs ts), GoodSeg s :=
        fun s hs => ht s (List.drop_subset _ ts hs)
      rw [rootCheck_of_relPath _ u _ _
        (relPath_segsToPath_pref bs ts hb ht hBT hpre), if_pos hpre]
      rw [if_neg (by
        simp [joinSegs_good_ne_dotdot _ hdropt hgoodrem,
          joinSegs_good_no_dotdot_pref _ hdropt hgoodrem])]
    · obtain ⟨r0, remB1, hrem⟩ :
          ∃ r0 remB1, bs.drop (commonPrefixLen bs ts) = r0 :: remB1 := by
        cases hd : bs.drop (commonPrefixLen bs ts) with
        | nil =>
          exact absurd ((commonPrefixLen_drop_nil_iff bs ts).1 hd) hpre
        | cons a as1 => exact ⟨a, as1, rfl⟩
      rw [rootCheck_of_relPath _ u _ _
        (relPath_segsToPath_nonpref bs ts r0 remB1 hb ht hBT hrem), if_neg hpre]
      rcases joinSegs_dotdot_lead (List.replicate remB1.length ".." ++
        ts.drop (commonPrefixLen bs ts)) with hcase | hcase
      · rw [if_pos (by simp [hcase])]
      · rw [if_pos (by simp [hcase])]

/-! ## Lemmas: `dirPath`, `basePath`, `fpJoin` on component paths -/

theorem dropWhile_append_all {α : Type} (p : α → Bool) (u v : List α)
    (h : ∀ c ∈ u, p c = true) : (u ++ v).dropWhile p = v.dropWhile p := by
  induction u with
  | nil => rfl
  | cons a u1 ih =>
    rw [List.cons_append, List.dropWhile_cons,
      if_pos (h a (List.mem_cons_self _ _)), ih (fun c hc => h c (List.mem_cons_of_mem a hc))]

theorem takeWhile_append_stop {α : Type} (p : α → Bool) (u : List α) (c : α) (w : List α)
    (h : ∀ x ∈ u, p x = true) (hc : p c = false) :
    (u ++ c :: w).takeWhile p = u := by
  induction u with
  | nil =>
    rw [List.nil_append, List.takeWhile_cons, hc]
    simp
  | cons a u1 ih =>
    rw [List.cons_append, List.takeWhile_cons, h a (List.mem_cons_self _ _)]
    simp only [if_true]
    rw [ih (fun x hx => h x (List.mem_cons_of_mem a hx))]

theorem joinSegs_append_single (xs : List String) (y : String) (h : xs ≠ []) :
    joinSegs (xs ++ [y]) = joinSegs xs ++ "/" ++ y := by
  induction xs with
  | nil => exact absurd rfl h
  | cons x xs1 ih =>
    cases xs1 with
    | nil => rfl
    | cons x2 r =>
      have ih2 := ih (by simp)
      show joinSegs (x :: x2 :: (r ++ [y])) = (x ++ "/" ++ joinSegs (x2 :: r)) ++ "/" ++ y
      rw [joinSegs_cons_cons,
        show (x2 :: (r ++ [y])) = (x2 :: r) ++ [y] from rfl, ih2]
      simp [String.append_assoc]

theorem segsOf_trailing_sep (p : String) : segsOf (p ++ "/") = segsOf p := by
  rw [segsOf, segsOf, String.data_append, show ("/" : String).data = ['/'] from rfl,
    splitOnSep_trailing, groupsToSegs_append]
  simp [groupsToSegs]

theorem isAbs_append_left (p q : String) (h : isAbs p = true) :
    isAbs (p ++ q) = true := by
  cases hd : p.data with
  | nil =>
    rw [show p = "" from String.ext hd] at h
    exact absurd h (by decide)
  | cons c r =>
    have hp : p = (⟨c :: r⟩ : String) := String.ext hd
    rw [hp, isAbs_cons] at h
    have hc : c = '/' := by simpa using h
    have hdapp : (p ++ q).data = c :: (r ++ q.data) := by
      rw [String.data_append, hd]
      rfl
    rw [show p ++ q = (⟨c :: (r ++ q.data)⟩ : String) from String.ext hdapp, isAbs_cons]
    simp [hc]

theorem clean_segsToPath_trailing (init : List String) (h : ∀ s ∈ init, GoodSeg s) :
    clean (segsToPath init ++ "/") = segsToPath init := by
  have habs : isAbs (segsToPath init ++ "/") = true :=
    isAbs_append_left _ _ (isAbs_segsToPath init)
  rw [clean_abs _ habs, segsOf_trailing_sep,
    segsOf_segsToPath init (goodSeg_sfree init h),
    cleanSegsAux_nodots true [] init (fun s hs => ⟨(h s hs).2.1, (h s hs).2.2.1⟩)]
  rfl

theorem segsToPath_append_last_data (init : List String) (last : String)
    (_h : ∀ s ∈ init ++ [last], GoodSeg s) :
    ∃ w, (segsToPath (init ++ [last])).data = w ++ '/' :: last.data ∧
      (segsToPath (init ++ [last])).data = '/' :: (joinSegs (init ++ [last])).data := by
  refine ⟨?_, ?_, segsToPath_data _⟩
  · exact if init = [] then [] else '/' :: (joinSegs init).data
  · cases hinit : init with
    | nil =>
      rw [segsToPath_data]
      simp only [List.nil_append, if_pos]
      rfl
    | cons i0 irest =>
      rw [segsToPath_data, ← hinit,
        joinSegs_append_single init last (by rw [hinit]; simp),
        String.data_append, String.data_append,
        show ("/" : String).data = ['/'] from rfl]
      rw [if_neg (by rw [hinit]; simp)]
      simp

theorem dirPath_segsToPath (segs : List String) (h : ∀ s ∈ segs, GoodSeg s) :
    dirPath (segsToPath segs) = segsToPath segs.dropLast := by
  rcases List.eq_nil_or_concat segs with hnil | ⟨init, last, hil⟩
  · subst hnil
    show dirPath (segsToPath []) = segsToPath []
    decide
  · rw [List.concat_eq_append] at hil
    subst hil
    have hlast : GoodSeg last := h last (by simp)
    have hinitgood : ∀ s ∈ init, GoodSeg s :=
      fun s hs => h s (List.mem_append_left _ hs)
    rw [List.dropLast_concat]
    cases init with
    | nil =>
      rw [dirPath]
      have hdata : (segsToPath ([] ++ [last])).data = '/' :: last.data := by
        rw [segsToPath_data]
        rfl
      rw [hdata]
      have hrev : ('/' :: last.data).reverse = last.data.reverse ++ ['/'] := by simp
      rw [hrev, dropWhile_append_all _ last.data.reverse ['/']
        (by
          intro c hc
          have : c ∈ last.data := List.mem_reverse.1 hc
          simp only [decide_eq_true_eq]
          intro hcc
          exact hlast.2.2.2 (hcc ▸ this))]
      show clean ⟨(List.dropWhile (fun c => decide (c ≠ '/')) ['/']).reverse⟩ = segsToPath []
      decide
    | cons i0 irest =>
      set init := i0 :: irest with hinitdef
      have hinitne : init ≠ [] := by simp [hinitdef]
      rw [dirPath]
      have hdata : (segsToPath (init ++ [last])).data =
          ('/' :: (joinSegs init).data) ++ '/' :: last.data := by
        rw [segsToPath_data, joinSegs_append_single init last hinitne,
          String.data_append, String.data_append,
          show ("/" : String).data = ['/'] from rfl]
        simp
      rw [hdata]
      have hrev : ((('/' :: (joinSegs init).data) ++ '/' :: last.data)).reverse =
          last.data.reverse ++ '/' :: ((joinSegs init).data.reverse ++ ['/']) := by
        simp
      rw [hrev, dropWhile_append_all _ last.data.reverse _
        (by
          intro c hc
          have : c ∈ last.data := List.mem_reverse.1 hc
          simp only [decide_eq_true_eq]
          intro hcc
          exact hlast.2.2.2 (hcc ▸ this))]
      rw [List.dropWhile_cons, if_neg (by simp)]
      have hstr : (⟨('/' :: ((joinSegs init).data.reverse ++ ['/'])).reverse⟩ : String) =
          segsToPath init ++ "/" := by
        apply String.ext
        rw [data_mk, String.data_append, segsToPath_data,
          show ("/" : String).data = ['/'] from rfl]
        simp
      rw [hstr, clean_segsToPath_trailing init hinitgood]

theorem basePath_segsToPath (init : List String) (last : String)
    (h : ∀ s ∈ init ++ [last], GoodSeg s) :
    basePath (segsToPath (init ++ [last])) = last := by
  have hlast : GoodSeg last := h last (by simp)
  obtain ⟨w, hw, _⟩ := segsToPath_append_last_data init last h
  have hldne : last.data ≠ [] := (ne_empty_iff_data last).1 hlast.1
  obtain ⟨d, ds, hds⟩ : ∃ d ds, last.data.reverse = d :: ds := by
    cases hrd : last.data.reverse with
    | nil =>
      exact absurd (by simpa using congrArg List.reverse hrd) hldne
    | cons d ds => exact ⟨d, ds, rfl⟩
  have hdlast : d ∈ last.data := List.mem_reverse.1 (hds ▸ List.mem_cons_self d ds)
  have hdne : d ≠ '/' := fun hc => hlast.2.2.2 (hc ▸ hdlast)
  rw [basePath, if_neg (by
    intro heq
    have hdeq := congrArg String.data heq
    rw [hw] at hdeq
    simp at hdeq)]
  have hrev : (segsToPath (init ++ [last])).data.reverse =
      last.data.reverse ++ '/' :: w.reverse := by
    rw [hw]
    simp
  rw [hrev]
  have hdw : List.dropWhile (fun c => decide (c = '/')) (last.data.reverse ++ '/' :: w.reverse) =
      last.data.reverse ++ '/' :: w.reverse := by
    rw [hds, List.cons_append, List.dropWhile_cons, if_neg (by simp [hdne])]
  rw [hdw]
  rw [if_neg (by
    rw [hds]
    simp)]
  have htw : List.takeWhile (fun c => decide (c ≠ '/'))
      ((last.data.reverse ++ '/' :: w.reverse).reverse.reverse) = last.data.reverse := by
    rw [List.reverse_reverse]
    exact takeWhile_append_stop _ last.data.reverse '/' w.reverse
      (by
        intro x hx
        have : x ∈ last.data := List.mem_reverse.1 hx
        simp only [decide_eq_true_eq]
        intro hcc
        exact hlast.2.2.2 (hcc ▸ this))
      (by simp)
  rw [htw]
  apply String.ext
  rw [data_mk]
  simp

theorem segsOf_join_aux (segs : List String)
    (h : ∀ s ∈ segs, s ≠ "" ∧ '/' ∉ s.data) (l : List Char) :
    groupsToSegs (splitOnSep ((joinSegs segs).data ++ '/' :: l)) =
      segs ++ groupsToSegs (splitOnSep l) := by
  induction segs with
  | nil =>
    show groupsToSegs (splitOnSep ([] ++ '/' :: l)) = groupsToSegs (splitOnSep l)
    rw [List.nil_append, splitOnSep_sep]
    rfl
  | cons s rest ih =>
    have hs := h s (List.mem_cons_self _ _)
    have hrest : ∀ s2 ∈ rest, s2 ≠ "" ∧ '/' ∉ s2.data :=
      fun s2 hs2 => h s2 (List.mem_cons_of_mem s hs2)
    obtain ⟨c, g, hd⟩ : ∃ c g, s.data = c :: g := by
      cases hsd : s.data with
      | nil => exact absurd (String.ext hsd) hs.1
      | cons c g => exact ⟨c, g, rfl⟩
    cases rest with
    | nil =>
      show groupsToSegs (splitOnSep (s.data ++ '/' :: l)) = s :: groupsToSegs (splitOnSep l)
      rw [splitOnSep_append_sep s.data hs.2, hd, groupsToSegs, ← hd, data_eta]
    | cons s2 rest2 =>
      rw [joinSegs_cons_cons, String.data_append, String.data_append,
        show ("/" : String).data = ['/'] from rfl]
      have hassoc : ((s.data ++ ['/']) ++ (joinSegs (s2 :: rest2)).data) ++ '/' :: l =
          s.data ++ '/' :: ((joinSegs (s2 :: rest2)).data ++ '/' :: l) := by
        simp
      rw [hassoc, splitOnSep_append_sep s.data hs.2, hd, groupsToSegs, ← hd, data_eta,
        ih hrest]
      rfl

/-! ## Lemmas: `walkStep`, `walk`, `evalSymlinks` -/

theorem prefixesNE_nil : prefixesNE [] = [] := rfl

theorem fullyResolved_nil (fs : FS) : fullyResolved fs [] = true := rfl

theorem fullyResolved_iff (fs : FS) (segs : List String) :
    fullyResolved fs segs = true ↔
      ∀ q ∈ prefixesNE segs, isSymlinkNode (fs.lookup (segsToPath q)) = false := by
  rw [fullyResolved, List.all_eq_true]
  constructor
  · intro h q hq
    have := h q hq
    rwa [Bool.not_eq_true'] at this
  · intro h q hq
    rw [Bool.not_eq_true']
    exact h q hq

theorem prefixesNE_snoc (xs : List String) (y : String) :
    prefixesNE (xs ++ [y]) = prefixesNE xs ++ [xs ++ [y]] := by
  rw [prefixesNE, prefixesNE, List.length_append, List.length_singleton,
    List.range_succ, List.map_append, List.map_singleton]
  congr 1
  · apply List.map_congr_left
    intro i hi
    have hilt : i < xs.length := List.mem_range.1 hi
    exact List.take_append_of_le_length hilt
  · rw [List.take_of_length_le (by simp)]

theorem prefixesNE_dropLast_subset (xs : List String) :
    ∀ q ∈ prefixesNE xs.dropLast, q ∈ prefixesNE xs := by
  intro q hq
  rw [prefixesNE, List.mem_map] at hq
  obtain ⟨i, hi, hq2⟩ := hq
  have hilt : i < xs.dropLast.length := List.mem_range.1 hi
  have hlen : xs.dropLast.length = xs.length - 1 := List.length_dropLast xs
  rw [prefixesNE, List.mem_map]
  refine ⟨i, List.mem_range.2 (by omega), ?_⟩
  rw [← hq2, List.dropLast_eq_take, List.take_take]
  congr 1
  omega

theorem fullyResolved_dropLast (fs : FS) (xs : List String)
    (h : fullyResolved fs xs = true) : fullyResolved fs xs.dropLast = true := by
  rw [fullyResolved_iff] at h ⊢
  exact fun q hq => h q (prefixesNE_dropLast_subset xs q hq)

theorem fullyResolved_snoc (fs : FS) (xs : List String) (y : String)
    (h : fullyResolved fs xs = true)
    (hy : isSymlinkNode (fs.lookup (segsToPath (xs ++ [y]))) = false) :
    fullyResolved fs (xs ++ [y]) = true := by
  rw [fullyResolved_iff] at h ⊢
  intro q hq
  rw [prefixesNE_snoc, List.mem_append] at hq
  rcases hq with h1 | h1
  · exact h q h1
  · rw [List.mem_singleton.1 h1]
    exact hy

theorem walkStep_nil (fs : FS) (dest : List String) :
    walkStep fs dest [] = .inl (some dest) := rfl

theorem walkStep_cons (fs : FS) (dest : List String) (s : String) (rest : List String) :
    walkStep fs dest (s :: rest) =
      if s = "" then walkStep fs dest rest
      else if s = "." then walkStep fs dest rest
      else if s = ".." then walkStep fs dest.dropLast rest
      else
        match fs.lookup (segsToPath (dest ++ [s])) with
        | none => .inl none
        | some .file => .inl (if rest.isEmpty then some (dest ++ [s]) else none)
        | some .dir => walkStep fs (dest ++ [s]) rest
        | some (.symlink t) =>
          .inr (if isAbs t then ([], segsOf t ++ rest) else (dest, segsOf t ++ rest)) := rfl

theorem walkStep_invariant (fs : FS) (segs dest : List String)
    (hdest : ∀ s ∈ dest, GoodSeg s) (hsegs : ∀ s ∈ segs, '/' ∉ s.data)
    (hres : fullyResolved fs dest = true) :
    (∀ r, walkStep fs dest segs = .inl (some r) →
      (∀ s ∈ r, GoodSeg s) ∧ fullyResolved fs r = true) ∧
    (∀ d2 g2, walkStep fs dest segs = .inr (d2, g2) →
      (∀ s ∈ d2, GoodSeg s) ∧ (∀ s ∈ g2, '/' ∉ s.data) ∧ fullyResolved fs d2 = true) := by
  induction segs generalizing dest with
  | nil =>
    constructor
    · intro r hr
      rw [walkStep_nil] at hr
      injection hr with hr2
      injection hr2 with hr3
      subst hr3
      exact ⟨hdest, hres⟩
    · intro d2 g2 hr
      rw [walkStep_nil] at hr
      exact absurd hr (by simp)
  | cons s rest ih =>
    have hrest : ∀ s2 ∈ rest, '/' ∉ s2.data :=
      fun s2 hs2 => hsegs s2 (List.mem_cons_of_mem s hs2)
    have hssep : '/' ∉ s.data := hsegs s (List.mem_cons_self _ _)
    by_cases hemp : s = ""
    · have heq : walkStep fs dest (s :: rest) = walkStep fs dest rest := by
        rw [walkStep_cons, if_pos hemp]
      rw [heq]
      exact ih dest hdest hrest hres
    · by_cases hdot : s = "."
      · have heq : walkStep fs dest (s :: rest) = walkStep fs dest rest := by
          rw [walkStep_cons, if_neg hemp, if_pos hdot]
        rw [heq]
        exact ih dest hdest hrest hres
      · by_cases hdd : s = ".."
        · have heq : walkStep fs dest (s :: rest) = walkStep fs dest.dropLast rest := by
            rw [walkStep_cons, if_neg hemp, if_neg hdot, if_pos hdd]
          rw [heq]
          exact ih dest.dropLast
            (fun s2 hs2 => hdest s2 ((List.dropLast_sublist dest).subset hs2))
            hrest (fullyResolved_dropLast fs dest hres)
        · have hsgood : GoodSeg s := ⟨hemp, hdot, hdd, hssep⟩
          have heq : walkStep fs dest (s :: rest) =
              match fs.lookup (segsToPath (dest ++ [s])) with
              | none => .inl none
              | some .file => .inl (if rest.isEmpty then some (dest ++ [s]) else none)
              | some .dir => walkStep fs (dest ++ [s]) rest
              | some (.symlink t) =>
                .inr (if isAbs t then ([], segsOf t ++ rest)
                      else (dest, segsOf t ++ rest)) := by
            rw [walkStep_cons, if_neg hemp, if_neg hdot, if_neg hdd]
          have hdestgood : ∀ s2 ∈ dest ++ [s], GoodSeg s2 := by
            intro s2 hs2
            rcases List.mem_append.1 hs2 with h1 | h1
            · exact hdest s2 h1
            · rw [List.mem_singleton.1 h1]
              exact hsgood
          cases hlook : fs.lookup (segsToPath (dest ++ [s])) with
          | none =>
            rw [heq, hlook]
            constructor
            · intro r hr
              exact absurd hr (by simp)
            · intro d2 g2 hr
              exact absurd hr (by simp)
          | some node =>
            cases node with
            | file =>
              rw [heq, hlook]
              constructor
              · intro r hr
                by_cases hre : rest.isEmpty
                · rw [if_pos hre] at hr
                  injection hr with hr2
                  injection hr2 with hr3
                  subst hr3
                  refine ⟨hdestgood, ?_⟩
                  exact fullyResolved_snoc fs dest s hres (by rw [hlook]; rfl)
                · rw [if_neg hre] at hr
                  injection hr with hr2
                  exact absurd hr2 (by simp)
              · intro d2 g2 hr
                exact absurd hr (by simp)
            | dir =>
              rw [heq, hlook]
              exact ih (dest ++ [s]) hdestgood hrest
                (fullyResolved_snoc fs dest s hres (by rw [hlook]; rfl))
            | symlink t =>
              rw [heq, hlook]
              constructor
              · intro r hr
                exact absurd hr (by simp)
              · intro d2 g2 hr
                have hpair : (if isAbs t then ([], segsOf t ++ rest)
                    else (dest, segsOf t ++ rest)) = (d2, g2) := by
                  injection hr
                have hsplice : ∀ s2 ∈ segsOf t ++ rest, '/' ∉ s2.data := by
                  intro s2 hs2
                  rcases List.mem_append.1 hs2 with h1 | h1
                  · exact (segsOf_mem_sfree t s2 h1).2
                  · exact hrest s2 h1
                by_cases habs : isAbs t = true
                · rw [if_pos habs] at hpair
                  injection hpair with h1 h2
                  subst h1
                  subst h2
                  exact ⟨by simp, hsplice, fullyResolved_nil fs⟩
                · rw [if_neg habs] at hpair
                  injection hpair with h1 h2
                  subst h1
                  subst h2
                  exact ⟨hdest, hsplice, hres⟩

theorem walk_zero (fs : FS) (dest segs : List String) :
    walk fs 0 dest segs =
      match walkStep fs dest segs with
      | .inl r => r
      | .inr _ => none := by
  rw [walk]

theorem walk_succ (fs : FS) (f : Nat) (dest segs : List String) :
    walk fs (f + 1) dest segs =
      match walkStep fs dest segs with
      | .inl r => r
      | .inr st => walk fs f st.1 st.2 := by
  rw [walk]

theorem walk_invariant (fs : FS) (fuel : Nat) (dest segs : List String)
    (hdest : ∀ s ∈ dest, GoodSeg s) (hsegs : ∀ s ∈ segs, '/' ∉ s.data)
    (hres : fullyResolved fs dest = true) (r : List String)
    (hw : walk fs fuel dest segs = some r) :
    (∀ s ∈ r, GoodSeg s) ∧ fullyResolved fs r = true := by
  induction fuel generalizing dest segs with
  | zero =>
    rw [walk_zero] at hw
    cases hstep : walkStep fs dest segs with
    | inl r0 =>
      rw [hstep] at hw
      have hw2 : r0 = some r := hw
      rw [hw2] at hstep
      exact (walkStep_invariant fs segs dest hdest hsegs hres).1 r hstep
    | inr st =>
      rw [hstep] at hw
      exact absurd hw (by simp)
  | succ f ih =>
    rw [walk_succ] at hw
    cases hstep : walkStep fs dest segs with
    | inl r0 =>
      rw [hstep] at hw
      have hw2 : r0 = some r := hw
      rw [hw2] at hstep
      exact (walkStep_invariant fs segs dest hdest hsegs hres).1 r hstep
    | inr st =>
      rw [hstep] at hw
      have hw2 : walk fs f st.1 st.2 = some r := hw
      obtain ⟨hd2, hg2, hres2⟩ :=
        (walkStep_invariant fs segs dest hdest hsegs hres).2 st.1 st.2 (by rw [hstep])
      exact ih st.1 st.2 hd2 hg2 hres2 hw2

theorem evalSymlinks_good (fs : FS) (p r : String)
    (h : evalSymlinks fs p = some r) :
    ∃ w, r = segsToPath w ∧ (∀ s ∈ w, GoodSeg s) ∧ fullyResolved fs w = true := by
  rw [evalSymlinks] at h
  by_cases habs : isAbs p = true
  · rw [if_pos habs] at h
    obtain ⟨w, hw, hr⟩ := Option.map_eq_some'.1 h
    refine ⟨w, hr.symm, ?_⟩
    exact walk_invariant fs 255 [] (segsOf p) (by simp)
      (fun s hs => (segsOf_mem_sfree p s hs).2) (fullyResolved_nil fs) w hw
  · rw [if_neg habs] at h
    exact absurd h (by simp)

theorem evalSymlinks_root (fs : FS) : evalSymlinks fs "/" = some "/" := rfl

/-! ## Lemmas: the candidate path -/

theorem cleanSegsAux_mem (rooted : Bool) (acc segs : List String) :
    ∀ x ∈ cleanSegsAux rooted acc segs, x ∈ acc ∨ x = ".." ∨ x ∈ segs := by
  induction segs generalizing acc with
  | nil =>
    intro x hx
    rw [cleanSegsAux_nil] at hx
    exact Or.inl (List.mem_reverse.1 hx)
  | cons s rest ih =>
    intro x hx
    rw [cleanSegsAux_cons] at hx
    by_cases hdot : s = "."
    · rw [if_pos hdot] at hx
      rcases ih acc x hx with h1 | h1 | h1
      · exact Or.inl h1
      · exact Or.inr (Or.inl h1)
      · exact Or.inr (Or.inr (List.mem_cons_of_mem s h1))
    · rw [if_neg hdot] at hx
      by_cases hdd : s = ".."
      · rw [if_pos hdd] at hx
        cases acc with
        | nil =>
          have hx1 : x ∈ (if rooted = true then cleanSegsAux rooted [] rest
              else cleanSegsAux rooted [".."] rest) := hx
          by_cases hroot : rooted = true
          · rw [if_pos hroot] at hx1
            rcases ih [] x hx1 with h1 | h1 | h1
            · exact absurd h1 (by simp)
            · exact Or.inr (Or.inl h1)
            · exact Or.inr (Or.inr (List.mem_cons_of_mem s h1))
          · rw [if_neg hroot] at hx1
            rcases ih [".."] x hx1 with h1 | h1 | h1
            · exact Or.inr (Or.inl (List.mem_singleton.1 h1))
            · exact Or.inr (Or.inl h1)
            · exact Or.inr (Or.inr (List.mem_cons_of_mem s h1))
        | cons a tl =>
          have hx1 : x ∈ (if a = ".." then cleanSegsAux rooted (".." :: a :: tl) rest
              else cleanSegsAux rooted tl rest) := hx
          by_cases ha : a = ".."
          · rw [if_pos ha] at hx1
            rcases ih (".." :: a :: tl) x hx1 with h1 | h1 | h1
            · rcases List.mem_cons.1 h1 with h2 | h2
              · exact Or.inr (Or.inl h2)
              · exact Or.inl h2
            · exact Or.inr (Or.inl h1)
            · exact Or.inr (Or.inr (List.mem_cons_of_mem s h1))
          · rw [if_neg ha] at hx1
            rcases ih tl x hx1 with h1 | h1 | h1
            · exact Or.inl (List.mem_cons_of_mem a h1)
            · exact Or.inr (Or.inl h1)
            · exact Or.inr (Or.inr (List.mem_cons_of_mem s h1))
      · rw [if_neg hdd] at hx
        rcases ih (s :: acc) x hx with h1 | h1 | h1
        · rcases List.mem_cons.1 h1 with h2 | h2
          · exact Or.inr (Or.inr (h2 ▸ List.mem_cons_self s rest))
          · exact Or.inl h2
        · exact Or.inr (Or.inl h1)
        · exact Or.inr (Or.inr (List.mem_cons_of_mem s h1))

theorem joinSegs_head_ne_empty (s : String) (rest : List String) (hs : s ≠ "") :
    joinSegs (s :: rest) ≠ "" := by
  cases rest with
  | nil => exact hs
  | cons s2 rest2 =>
    rw [joinSegs_cons_cons]
    intro heq
    have hd := congrArg String.data heq
    rw [String.data_append, String.data_append] at hd
    simp [show ("/" : String).data = ['/'] from rfl] at hd

theorem clean_ne_empty (p : String) : clean p ≠ "" := by
  rw [clean]
  by_cases hp : p = ""
  · rw [if_pos hp]
    decide
  · rw [if_neg hp]
    by_cases hr : isAbs p = true
    · simp only [hr, if_true]
      intro heq
      have hd := congrArg String.data heq
      rw [String.data_append] at hd
      simp [show ("/" : String).data = ['/'] from rfl] at hd
    · have hrf : isAbs p = false := Bool.not_eq_true (isAbs p) ▸ hr
      simp only [hrf, Bool.false_eq_true, if_false]
      cases hout : cleanSegsAux false [] (segsOf p) with
      | nil =>
        rw [if_pos rfl]
        decide
      | cons o orest =>
        rw [if_neg (by simp)]
        apply joinSegs_head_ne_empty
        rcases cleanSegsAux_mem false [] (segsOf p) o
            (hout ▸ List.mem_cons_self o orest) with h1 | h1 | h1
        · exact absurd h1 (by simp)
        · rw [h1]
          decide
        · exact (segsOf_mem_sfree p o h1).1

theorem candidateAbsOf_good (root u : String) (habs : isAbs root = true) :
    ∃ out, candidateAbsOf root u = segsToPath out ∧ ∀ s ∈ out, GoodSeg s := by
  rw [candidateAbsOf]
  by_cases hcl : isAbs (clean u) = true
  · simp only [hcl, if_true]
    exact clean_abs_good (clean u) hcl
  · have hclf : isAbs (clean u) = false := Bool.not_eq_true (isAbs (clean u)) ▸ hcl
    simp only [hclf, Bool.false_eq_true, if_false]
    have hrootne : root ≠ "" := by
      intro he
      rw [he] at habs
      exact absurd habs (by decide)
    rw [fpJoin, if_neg (by simp [hrootne]), if_neg hrootne, if_neg (clean_ne_empty u)]
    obtain ⟨mid, hmid, hmidgood⟩ :=
      clean_abs_good (root ++ "/" ++ clean u)
        (isAbs_append_left _ _ (isAbs_append_left _ _ habs))
    rw [hmid, clean_segsToPath_good mid hmidgood]
    exact ⟨mid, rfl, hmidgood⟩

theorem Resolve_empty (fs : FS) (root userPath : String) (access : PathAccess)
    (he : strTrim userPath = "") :
    Resolve fs root userPath access =
      .error { code := "invalid_argument", message := "path cannot be empty"
             , suggestions := [] } := by
  rw [Resolve, if_pos he]

theorem Resolve_read_eq (fs : FS) (root userPath : String)
    (hne : strTrim userPath ≠ "") :
    Resolve fs root userPath .readFile =
      match evalSymlinks fs (candidateAbsOf root userPath) with
      | none =>
        .error { code := "not_found", message := "path not found: " ++ userPath
               , suggestions := suggestFiles fs (candidateAbsOf root userPath) }
      | some real => rootCheck root userPath real := by
  rw [Resolve, if_neg hne]

theorem Resolve_list_eq (fs : FS) (root userPath : String)
    (hne : strTrim userPath ≠ "") :
    Resolve fs root userPath .listDir =
      match evalSymlinks fs (candidateAbsOf root userPath) with
      | none =>
        .error { code := "not_found", message := "path not found: " ++ userPath
               , suggestions := suggestFiles fs (candidateAbsOf root userPath) }
      | some real => rootCheck root userPath real := by
  rw [Resolve, if_neg hne]

theorem Resolve_write_eq (fs : FS) (root userPath : String)
    (hne : strTrim userPath ≠ "") :
    Resolve fs root userPath .writeFile =
      match evalSymlinks fs (candidateAbsOf root userPath) with
      | some real => rootCheck root userPath real
      | none =>
        match evalSymlinks fs (dirPath (candidateAbsOf root userPath)) with
        | none =>
          .error { code := "not_found"
                 , message := "parent directory not found: " ++ dirPath userPath
                 , suggestions := suggestFiles fs (dirPath (candidateAbsOf root userPath)) }
        | some parentReal =>
          rootCheck root userPath (fpJoin parentReal (basePath (candidateAbsOf root userPath))) := by
  rw [Resolve, if_neg hne]

theorem fpJoin_segsToPath (pw : List String) (y : String)
    (hpw : ∀ s ∈ pw, GoodSeg s) (hy : GoodSeg y) :
    fpJoin (segsToPath pw) y = segsToPath (pw ++ [y]) := by
  have hane : segsToPath pw ≠ "" := segsToPath_ne_empty pw
  rw [fpJoin, if_neg (by simp [hane]), if_neg hane, if_neg hy.1]
  have habs : isAbs (segsToPath pw ++ "/" ++ y) = true := by
    apply isAbs_append_left
    apply isAbs_append_left
    exact isAbs_segsToPath pw
  rw [clean_abs _ habs]
  have hdata : (segsToPath pw ++ "/" ++ y).data =
      '/' :: ((joinSegs pw).data ++ '/' :: y.data) := by
    rw [String.data_append, String.data_append, segsToPath_data,
      show ("/" : String).data = ['/'] from rfl]
    simp
  have hsegs : segsOf (segsToPath pw ++ "/" ++ y) = pw ++ [y] := by
    rw [segsOf, hdata, splitOnSep_sep]
    show groupsToSegs (splitOnSep ((joinSegs pw).data ++ '/' :: y.data)) = pw ++ [y]
    rw [segsOf_join_aux pw (goodSeg_sfree pw hpw) y.data,
      splitOnSep_sepfree y.data hy.2.2.2]
    obtain ⟨c, g, hd⟩ : ∃ c g, y.data = c :: g := by
      cases hsd : y.data with
      | nil => exact absurd (String.ext hsd) hy.1
      | cons c g => exact ⟨c, g, rfl⟩
    rw [hd, groupsToSegs, ← hd, data_eta]
    rfl
  rw [hsegs, cleanSegsAux_nodots true [] (pw ++ [y])
    (by
      intro s hs
      rcases List.mem_append.1 hs with h1 | h1
      · exact ⟨(hpw s h1).2.1, (hpw s h1).2.2.1⟩
      · rw [List.mem_singleton.1 h1]
        exact ⟨hy.2.1, hy.2.2.1⟩)]
  rfl

/-! ## Lemmas: `Resolve` assembled -/

theorem containedIn_segsToPath (rootSegs w : List String)
    (hroot : ∀ s ∈ rootSegs, GoodSeg s) (hw : ∀ s ∈ w, GoodSeg s) :
    containedIn (segsToPath rootSegs) (segsToPath w) ↔ rootSegs <+: w := by
  rw [containedIn, segsOf_clean_segsToPath rootSegs hroot, segsOf_clean_segsToPath w hw]

theorem Resolve_eval_some (fs : FS) (rootSegs : List String) (userPath : String)
    (access : PathAccess) (r : String)
    (hgood : ∀ s ∈ rootSegs, GoodSeg s)
    (hne : strTrim userPath ≠ "")
    (hev : evalSymlinks fs (candidateAbsOf (segsToPath rootSegs) userPath) = some r) :
    ∃ w, r = segsToPath w ∧ (∀ s ∈ w, GoodSeg s) ∧ fullyResolved fs w = true ∧
      Resolve fs (segsToPath rootSegs) userPath access =
        (if rootSegs <+: w then .ok r
         else .error (permissionDeniedError userPath)) := by
  obtain ⟨w, hr, hw, hres⟩ := evalSymlinks_good _ _ _ hev
  refine ⟨w, hr, hw, hres, ?_⟩
  have hcheck : rootCheck (segsToPath rootSegs) userPath r =
      (if rootSegs <+: w then .ok r else .error (permissionDeniedError userPath)) := by
    rw [hr]
    exact rootCheck_segsToPath rootSegs w userPath hgood hw
  cases access with
  | readFile =>
    rw [Resolve_read_eq fs _ userPath hne, hev]
    exact hcheck
  | listDir =>
    rw [Resolve_list_eq fs _ userPath hne, hev]
    exact hcheck
  | writeFile =>
    rw [Resolve_write_eq fs _ userPath hne, hev]
    exact hcheck

theorem Resolve_write_new (fs : FS) (rootSegs : List String) (userPath pr : String)
    (hgood : ∀ s ∈ rootSegs, GoodSeg s)
    (hne : strTrim userPath ≠ "")
    (hev : evalSymlinks fs (candidateAbsOf (segsToPath rootSegs) userPath) = none)
    (hpar : evalSymlinks fs (dirPath (candidateAbsOf (segsToPath rootSegs) userPath))
      = some pr) :
    ∃ pw lastSeg,
      pr = segsToPath pw ∧ (∀ s ∈ pw, GoodSeg s) ∧ fullyResolved fs pw = true ∧
      GoodSeg lastSeg ∧
      basePath (candidateAbsOf (segsToPath rootSegs) userPath) = lastSeg ∧
      fpJoin pr (basePath (candidateAbsOf (segsToPath rootSegs) userPath)) =
        segsToPath (pw ++ [lastSeg]) ∧
      Resolve fs (segsToPath rootSegs) userPath .writeFile =
        (if rootSegs <+: pw ++ [lastSeg] then .ok (segsToPath (pw ++ [lastSeg]))
         else .error (permissionDeniedError userPath)) := by
  obtain ⟨out, hout, houtgood⟩ :=
    candidateAbsOf_good (segsToPath rootSegs) userPath (isAbs_segsToPath rootSegs)
  have houtne : out ≠ [] := by
    intro he
    rw [he] at hout
    rw [hout] at hev
    rw [show segsToPath [] = "/" from rfl, evalSymlinks_root fs] at hev
    exact absurd hev (by simp)
  obtain ⟨init, lastSeg, hil⟩ : ∃ init lastSeg, out = init ++ [lastSeg] := by
    rcases List.eq_nil_or_concat out with h1 | ⟨init, lastSeg, h1⟩
    · exact absurd h1 houtne
    · rw [List.concat_eq_append] at h1
      exact ⟨init, lastSeg, h1⟩
  have hlastgood : GoodSeg lastSeg := houtgood lastSeg (by rw [hil]; simp)
  have hbase : basePath (candidateAbsOf (segsToPath rootSegs) userPath) = lastSeg := by
    rw [hout, hil]
    exact basePath_segsToPath init lastSeg (hil ▸ houtgood)
  obtain ⟨pw, hpr, hpw, hpres⟩ := evalSymlinks_good _ _ _ hpar
  have hjoin : fpJoin pr (basePath (candidateAbsOf (segsToPath rootSegs) userPath)) =
      segsToPath (pw ++ [lastSeg]) := by
    rw [hbase, hpr]
    exact fpJoin_segsToPath pw lastSeg hpw hlastgood
  refine ⟨pw, lastSeg, hpr, hpw, hpres, hlastgood, hbase, hjoin, ?_⟩
  rw [Resolve_write_eq fs _ userPath hne, hev, hpar]
  show rootCheck (segsToPath rootSegs) userPath
      (fpJoin pr (basePath (candidateAbsOf (segsToPath rootSegs) userPath))) = _
  rw [hjoin]
  exact rootCheck_segsToPath rootSegs (pw ++ [lastSeg]) userPath hgood
    (by
      intro s hs
      rcases List.mem_append.1 hs with h1 | h1
      · exact hpw s h1
      · rw [List.mem_singleton.1 h1]
        exact hlastgood)

/-! ## Claim C1 -/

/-- C1 (counterexample): with a dangling symbolic link `/root/link →
/outside/new` inside the root, a Write resolution succeeds and returns
`/root/link`, whose final component is an unresolved symbolic link whose
target lies outside the root — so a successful result is not always a
fully symlink-resolved path. -/
theorem resolve_fully_resolved_counterexample :
    Resolve fsDangling "/root" "link" .writeFile = .ok "/root/link" ∧
    fullyResolved fsDangling (segsOf "/root/link") = false ∧
    FS.lookup fsDangling "/root/link" = some (.symlink "/outside/new") ∧
    ¬ containedIn "/root" "/outside/new" :=
  ⟨by decide, by decide, by decide, by decide⟩

/-- C1 (amended): whenever `Resolve` succeeds, the returned path is
absolute and contained in (or equal to) the root; for Read and List
access it is moreover fully symlink-resolved, and for Write access every
component except possibly the final one is fully symlink-resolved. -/
theorem resolve_ok_abs_contained (fs : FS) (rootSegs : List String)
    (userPath : String) (access : PathAccess) (res : String)
    (hgood : ∀ s ∈ rootSegs, GoodSeg s)
    (hok : Resolve fs (segsToPath rootSegs) userPath access = .ok res) :
    isAbs res = true ∧ containedIn (segsToPath rootSegs) res ∧
      ((access = .readFile ∨ access = .listDir) →
        fullyResolved fs (segsOf res) = true) ∧
      (access = .writeFile → fullyResolved fs (segsOf res).dropLast = true) := by
  have hne : strTrim userPath ≠ "" := by
    intro he
    rw [Resolve_empty fs _ userPath access he] at hok
    exact absurd hok (by simp)
  cases hev : evalSymlinks fs (candidateAbsOf (segsToPath rootSegs) userPath) with
  | some r =>
    obtain ⟨w, hr, hw, hres, heq⟩ :=
      Resolve_eval_some fs rootSegs userPath access r hgood hne hev
    rw [heq] at hok
    by_cases hpre : rootSegs <+: w
    · rw [if_pos hpre] at hok
      injection hok with hok2
      subst hok2
      subst hr
      refine ⟨isAbs_segsToPath w, ?_, ?_, ?_⟩
      · exact (containedIn_segsToPath rootSegs w hgood hw).2 hpre
      · intro _
        rwa [segsOf_segsToPath w (goodSeg_sfree w hw)]
      · intro _
        rw [segsOf_segsToPath w (goodSeg_sfree w hw)]
        exact fullyResolved_dropLast fs w hres
    · rw [if_neg hpre] at hok
      exact absurd hok (by simp)
  | none =>
    cases access with
    | readFile =>
      rw [Resolve_read_eq fs _ userPath hne, hev] at hok
      exact absurd hok (by simp)
    | listDir =>
      rw [Resolve_list_eq fs _ userPath hne, hev] at hok
      exact absurd hok (by simp)
    | writeFile =>
      cases hpar :
          evalSymlinks fs (dirPath (candidateAbsOf (segsToPath rootSegs) userPath)) with
      | none =>
        rw [Resolve_write_eq fs _ userPath hne, hev, hpar] at hok
        exact absurd hok (by simp)
      | some pr =>
        obtain ⟨pw, lastSeg, hpr, hpw, hpres, hlg, hbase, hjoin, heq⟩ :=
          Resolve_write_new fs rootSegs userPath pr hgood hne hev hpar
        have hall : ∀ s ∈ pw ++ [lastSeg], GoodSeg s := by
          intro s hs
          rcases List.mem_append.1 hs with h1 | h1
          · exact hpw s h1
          · rw [List.mem_singleton.1 h1]
            exact hlg
        rw [heq] at hok
        by_cases hpre : rootSegs <+: pw ++ [lastSeg]
        · rw [if_pos hpre] at hok
          injection hok with hok2
          subst hok2
          refine ⟨isAbs_segsToPath _,
            (containedIn_segsToPath rootSegs (pw ++ [lastSeg]) hgood hall).2 hpre, ?_, ?_⟩
          · intro hacc
            rcases hacc with h1 | h1 <;> exact absurd h1 (by simp)
          · intro _
            rw [segsOf_segsToPath (pw ++ [lastSeg]) (goodSeg_sfree _ hall),
              List.dropLast_concat]
            exact hpres
        · rw [if_neg hpre] at hok
          exact absurd hok (by simp)

/-- C1 (witness): a plain read inside the workspace. -/
theorem resolve_ok_abs_contained_witness :
    isAbs "/ws/a.txt" = true ∧ containedIn (segsToPath ["ws"]) "/ws/a.txt" ∧
      ((PathAccess.readFile = PathAccess.readFile ∨
        PathAccess.readFile = PathAccess.listDir) →
        fullyResolved fsBasic (segsOf "/ws/a.txt") = true) ∧
      (PathAccess.readFile = PathAccess.writeFile →
        fullyResolved fsBasic (segsOf "/ws/a.txt").dropLast = true) :=
  resolve_ok_abs_contained fsBasic ["ws"] "a.txt" .readFile "/ws/a.txt"
    (by decide) (by decide)

/-! ## Claim C2 -/

/-- C2: whenever the symlink-resolved candidate lies outside the root —
in particular after normalizing any number of `..` segments — `Resolve`
rejects with `permission_denied`. -/
theorem resolve_escape_denied (fs : FS) (rootSegs : List String)
    (userPath : String) (access : PathAccess) (r : String)
    (hgood : ∀ s ∈ rootSegs, GoodSeg s)
    (hne : strTrim userPath ≠ "")
    (hev : evalSymlinks fs (candidateAbsOf (segsToPath rootSegs) userPath) = some r)
    (hout : ¬ containedIn (segsToPath rootSegs) r) :
    Resolve fs (segsToPath rootSegs) userPath access =
      .error (permissionDeniedError userPath) := by
  obtain ⟨w, hr, hw, _, heq⟩ :=
    Resolve_eval_some fs rootSegs userPath access r hgood hne hev
  rw [heq, if_neg]
  intro hpre
  apply hout
  rw [hr]
  exact (containedIn_segsToPath rootSegs w hgood hw).2 hpre

/-- C2 (witness): Scenario A — root `/ws`, `read_file("../secret.txt")`
is rejected with `permission_denied`. -/
theorem resolve_escape_denied_witness :
    Resolve fsBasic (segsToPath ["ws"]) "../secret.txt" .readFile =
      .error (permissionDeniedError "../secret.txt") :=
  resolve_escape_denied fsBasic ["ws"] "../secret.txt" .readFile "/secret.txt"
    (by decide) (by decide) (by decide) (by decide)

/-! ## Claim C3 -/

/-- C3: for a Write resolution of a non-existent candidate with a
resolvable parent, the write target is exactly the resolved real parent
joined with the candidate's final path segment, and that target is
containment-checked: inside the root it is returned, outside the root —
for example through a parent that is a symbolic link pointing outside —
the resolution is rejected, never returning a path outside the root. -/
theorem resolve_write_new_target_checked (fs : FS) (rootSegs : List String)
    (userPath pr : String)
    (hgood : ∀ s ∈ rootSegs, GoodSeg s)
    (hne : strTrim userPath ≠ "")
    (hev : evalSymlinks fs (candidateAbsOf (segsToPath rootSegs) userPath) = none)
    (hpar : evalSymlinks fs (dirPath (candidateAbsOf (segsToPath rootSegs) userPath))
      = some pr) :
    Resolve fs (segsToPath rootSegs) userPath .writeFile =
      (if containedIn (segsToPath rootSegs)
          (fpJoin pr (basePath (candidateAbsOf (segsToPath rootSegs) userPath)))
       then .ok (fpJoin pr (basePath (candidateAbsOf (segsToPath rootSegs) userPath)))
       else .error (permissionDeniedError userPath)) := by
  obtain ⟨pw, lastSeg, hpr, hpw, hpres, hlg, hbase, hjoin, heq⟩ :=
    Resolve_write_new fs rootSegs userPath pr hgood hne hev hpar
  have hall : ∀ s ∈ pw ++ [lastSeg], GoodSeg s := by
    intro s hs
    rcases List.mem_append.1 hs with h1 | h1
    · exact hpw s h1
    · rw [List.mem_singleton.1 h1]
      exact hlg
  have hiff := containedIn_segsToPath rootSegs (pw ++ [lastSeg]) hgood hall
  rw [heq, hjoin]
  by_cases hpre : rootSegs <+: pw ++ [lastSeg]
  · rw [if_pos hpre, if_pos (hiff.2 hpre)]
  · rw [if_neg hpre, if_neg (fun hc => hpre (hiff.1 hc))]

/-- C3 (witness): writing `dir/new.txt` under a root whose `dir` entry is
a symbolic link to a directory outside the root is rejected with
`permission_denied`. -/
theorem resolve_write_new_target_checked_witness :
    Resolve fsLinkedParent (segsToPath ["root"]) "dir/new.txt" .writeFile =
      .error (permissionDeniedError "dir/new.txt") := by
  rw [resolve_write_new_target_checked fsLinkedParent ["root"] "dir/new.txt" "/outside"
    (by decide) (by decide) (by decide) (by decide)]
  decide

/-! ## Claim C8 -/

/-- C8: `Resolve` is a pure function of the filesystem state and its
arguments — two calls with the same arguments against the same
filesystem yield the same outcome (same path on success, same structured
rejection on failure). -/
theorem resolve_deterministic (fs : FS) (root userPath : String)
    (access : PathAccess) (out1 out2 : Except SandboxError String)
    (h1 : Resolve fs root userPath access = out1)
    (h2 : Resolve fs root userPath access = out2) :
    out1 = out2 := by
  rw [← h1, ← h2]

/-- C8 (witness): both calls on the same state agree. -/
theorem resolve_deterministic_witness :
    (Except.ok "/ws/a.txt" : Except SandboxError String) = .ok "/ws/a.txt" :=
  resolve_deterministic fsBasic "/ws" "a.txt" .readFile
    (.ok "/ws/a.txt") (.ok "/ws/a.txt") (by decide) (by decide)

/-! ## Claim C9 -/

/-- C9: the containment check rejects only genuine escapes — a resolved
candidate inside the root whose first root-relative component merely
begins with the characters `".."` as part of a longer name (such as
`..cache`) is accepted, because the check compares the relative path
against exactly `".."` or a leading `"../"`. -/
theorem resolve_dotdot_name_allowed (fs : FS) (rootSegs : List String)
    (userPath : String) (access : PathAccess) (r seg : String) (rest2 : List String)
    (hgood : ∀ s ∈ rootSegs, GoodSeg s)
    (hne : strTrim userPath ≠ "")
    (hev : evalSymlinks fs (candidateAbsOf (segsToPath rootSegs) userPath) = some r)
    (hin : containedIn (segsToPath rootSegs) r)
    (_hseg : (segsOf (clean r)).drop rootSegs.length = seg :: rest2)
    (_hpre : strHasPrefix seg ".." = true) (_hsegne : seg ≠ "..") :
    Resolve fs (segsToPath rootSegs) userPath access = .ok r := by
  obtain ⟨w, hr, hw, _, heq⟩ :=
    Resolve_eval_some fs rootSegs userPath access r hgood hne hev
  rw [heq, if_pos]
  apply (containedIn_segsToPath rootSegs w hgood hw).1
  rw [← hr]
  exact hin

/-- C9 (witness): reading `..cache/file` under root `/ws` succeeds and is
not mistaken for an escape. -/
theorem resolve_dotdot_name_allowed_witness :
    Resolve fsDotCache (segsToPath ["ws"]) "..cache/file" .readFile =
      .ok "/ws/..cache/file" :=
  resolve_dotdot_name_allowed fsDotCache ["ws"] "..cache/file" .readFile
    "/ws/..cache/file" "..cache" ["file"]
    (by decide) (by decide) (by decide) (by decide) (by decide) (by decide) (by decide)

/-! ## Lemmas: the streamed-fragment fold -/

theorem mergedParts_nil : mergedParts [] = [] := rfl

theorem mergedParts_cons (x : StreamItem) (rest : Stream) :
    mergedParts (x :: rest) = fragParts x ++ mergedParts rest := rfl

theorem collectedCalls_cons (x : StreamItem) (rest : Stream) :
    collectedCalls (x :: rest) =
      (fragParts x).filterMap (·.functionCall) ++ collectedCalls rest := by
  rw [collectedCalls, collectedCalls, mergedParts_cons, List.filterMap_append]

theorem concatText_append (xs ys : List Part) :
    concatText (xs ++ ys) = concatText xs ++ concatText ys := by
  induction xs with
  | nil =>
    rw [List.nil_append, concatText]
    exact (String.ext (by rw [String.data_append]; rfl))
  | cons p ps ih =>
    rw [List.cons_append, concatText, concatText, ih, String.append_assoc]

theorem concatText_mergedParts (s : Stream) :
    concatText (mergedParts s) = streamTextConcat s := by
  induction s with
  | nil => rfl
  | cons x rest ih =>
    rw [mergedParts_cons, concatText_append, streamTextConcat, ih]

theorem streamAux_no_err (s : Stream) (parts : List Part) (calls : List FunctionCall)
    (hok : ∀ x ∈ s, isErrFrag x = false) :
    streamAux s parts calls =
      .ok ({ role := "model", parts := parts ++ mergedParts s },
        calls ++ collectedCalls s) := by
  induction s generalizing parts calls with
  | nil =>
    rw [streamAux, mergedParts_nil]
    rw [show collectedCalls [] = [] from rfl]
    simp
  | cons x rest ih =>
    have hrest : ∀ y ∈ rest, isErrFrag y = false :=
      fun y hy => hok y (List.mem_cons_of_mem x hy)
    cases x with
    | error e =>
      have hcontra := hok (.error e) (List.mem_cons_self _ _)
      exact Bool.noConfusion hcontra
    | ok resp =>
      cases resp with
      | none =>
        rw [streamAux, ih parts calls hrest, mergedParts_cons, collectedCalls_cons]
        rw [show fragParts (Except.ok none) = [] from rfl]
        simp
      | some ps =>
        rw [streamAux, ih (parts ++ ps) (calls ++ ps.filterMap (·.functionCall)) hrest,
          mergedParts_cons, collectedCalls_cons]
        rw [show fragParts (Except.ok (some ps)) = ps from rfl]
        simp

theorem streamAux_err (s : Stream) (herr : ∃ x ∈ s, isErrFrag x = true) :
    ∀ parts calls, ∃ e, streamAux s parts calls = .error e := by
  induction s with
  | nil =>
    obtain ⟨x, hx, _⟩ := herr
    exact absurd hx (by simp)
  | cons x rest ih =>
    intro parts calls
    cases x with
    | error e => exact ⟨"stream error: " ++ e, rfl⟩
    | ok resp =>
      have hrest : ∃ y ∈ rest, isErrFrag y = true := by
        obtain ⟨y, hy, hyerr⟩ := herr
        rcases List.mem_cons.1 hy with h1 | h1
        · rw [h1] at hyerr
          exact Bool.noConfusion hyerr
        · exact ⟨y, h1, hyerr⟩
      cases resp with
      | none => exact ih hrest parts calls
      | some ps => exact ih hrest (parts ++ ps) (calls ++ ps.filterMap (·.functionCall))

theorem runRound_ok (exec : FunctionCall → ToolResult) (history : List Content)
    (s : Stream) (mc : Content) (calls : List FunctionCall)
    (h : streamModelResponse s = .ok (mc, calls)) :
    runRound exec history s =
      if calls.isEmpty then (history ++ [mc], .finished)
      else (history ++ [mc, { role := "user", parts := executeToolCalls exec calls }],
        .toolsExecuted calls) := by
  rw [runRound, h]

theorem runRound_err (exec : FunctionCall → ToolResult) (history : List Content)
    (s : Stream) (e : String) (h : streamModelResponse s = .error e) :
    runRound exec history s = (history, .fatal e) := by
  rw [runRound, h]

/-! ## Claim C4 -/

/-- C4: a complete (error-free) fragment sequence is merged into exactly
one `model`-role history entry whose parts are all fragments' content
pieces in original order; the loop body appends that single entry
(followed only by a `user`-role tool-result entry when tool calls were
collected), and its concatenated text equals the concatenation of all
text fragments in order. -/
theorem one_model_entry_per_invocation (exec : FunctionCall → ToolResult)
    (history : List Content) (s : Stream)
    (hok : ∀ x ∈ s, isErrFrag x = false) :
    streamModelResponse s =
      .ok ({ role := "model", parts := mergedParts s }, collectedCalls s) ∧
    (∃ tail, (runRound exec history s).1 =
        history ++ ({ role := "model", parts := mergedParts s } :: tail) ∧
      ∀ c ∈ tail, c.role = "user") ∧
    concatText (mergedParts s) = streamTextConcat s := by
  have h1 : streamModelResponse s =
      .ok ({ role := "model", parts := mergedParts s }, collectedCalls s) := by
    rw [streamModelResponse, streamAux_no_err s [] [] hok]
    simp
  refine ⟨h1, ?_, concatText_mergedParts s⟩
  rw [runRound_ok exec history s _ _ h1]
  by_cases hemp : (collectedCalls s).isEmpty
  · rw [if_pos hemp]
    exact ⟨[], by simp, by simp⟩
  · rw [if_neg hemp]
    refine ⟨[{ role := "user", parts := executeToolCalls exec (collectedCalls s) }],
      by simp, ?_⟩
    intro c hc
    rw [List.mem_singleton.1 hc]

/-- C4 (witness): a three-fragment stream (text split over two fragments,
one candidate-less response, two collected calls) merges into one model
entry whose text is `"Hello"`. -/
theorem one_model_entry_per_invocation_witness :
    streamModelResponse sampleStream =
      .ok ({ role := "model", parts := mergedParts sampleStream },
        collectedCalls sampleStream) ∧
    (∃ tail, (runRound execStub [] sampleStream).1 =
        [] ++ ({ role := "model", parts := mergedParts sampleStream } :: tail) ∧
      ∀ c ∈ tail, c.role = "user") ∧
    concatText (mergedParts sampleStream) = streamTextConcat sampleStream :=
  one_model_entry_per_invocation execStub [] sampleStream (by decide)

/-! ## Claim C5 -/

/-- C5: when a round collects tool calls, all of them are executed and
packaged — in the order received — as exactly one `user`-role history
entry holding one tool-result fragment per call, the i-th fragment
carrying the name and executed result of the i-th call. -/
theorem tool_results_one_user_entry (exec : FunctionCall → ToolResult)
    (history : List Content) (s : Stream) (mc : Content) (calls : List FunctionCall)
    (hok : streamModelResponse s = .ok (mc, calls)) (hne : calls ≠ []) :
    (runRound exec history s).1 =
      history ++ [mc, { role := "user", parts := executeToolCalls exec calls }] ∧
    (executeToolCalls exec calls).length = calls.length ∧
    ∀ (i : Nat) (call : FunctionCall), calls[i]? = some call →
      (executeToolCalls exec calls)[i]? = some
        { text := "", functionCall := none
        , functionResponse := some { name := call.name, response := (exec call).asMap } } := by
  refine ⟨?_, ?_, ?_⟩
  · rw [runRound_ok exec history s mc calls hok,
      if_neg (by simp [List.isEmpty_iff, hne])]
  · rw [executeToolCalls, List.length_map]
  · intro i call hcall
    rw [executeToolCalls, List.getElem?_map, hcall]
    rfl

/-- C5 (witness): the sample stream collects two calls; both are executed
in order into a single two-fragment user entry. -/
theorem tool_results_one_user_entry_witness :
    (runRound execStub [] sampleStream).1 =
      [] ++ [{ role := "model", parts := mergedParts sampleStream },
        { role := "user"
        , parts := executeToolCalls execStub (collectedCalls sampleStream) }] ∧
    (executeToolCalls execStub (collectedCalls sampleStream)).length =
      (collectedCalls sampleStream).length ∧
    ∀ (i : Nat) (call : FunctionCall), (collectedCalls sampleStream)[i]? = some call →
      (executeToolCalls execStub (collectedCalls sampleStream))[i]? = some
        { text := "", functionCall := none
        , functionResponse := some
            { name := call.name, response := (execStub call).asMap } } :=
  tool_results_one_user_entry execStub [] sampleStream
    { role := "model", parts := mergedParts sampleStream } (collectedCalls sampleStream)
    (by rw [streamModelResponse, streamAux_no_err sampleStream [] [] (by decide)]; simp)
    (fun h => List.noConfusion h)

/-! ## Claim C6 -/

/-- C6: a transport error anywhere in the fragment sequence aborts the
turn with a stream error, and the history is left exactly as it was — no
model-role entry from that invocation and no tool-result entry is
appended. -/
theorem transport_error_aborts (exec : FunctionCall → ToolResult)
    (history : List Content) (s : Stream)
    (herr : ∃ x ∈ s, isErrFrag x = true) :
    ∃ e, streamModelResponse s = .error e ∧
      runRound exec history s = (history, .fatal e) := by
  obtain ⟨e, he⟩ := streamAux_err s herr [] []
  have he2 : streamModelResponse s = .error e := he
  exact ⟨e, he2, runRound_err exec history s e he2⟩

/-- C6 (witness): a stream interrupted by a transport error leaves a
one-entry history untouched. -/
theorem transport_error_aborts_witness :
    ∃ e, streamModelResponse errorStream = .error e ∧
      runRound execStub [{ role := "user", parts := [] }] errorStream =
        ([{ role := "user", parts := [] }], .fatal e) :=
  transport_error_aborts execStub [{ role := "user", parts := [] }] errorStream
    ⟨.error "connection reset", List.mem_cons_of_mem _ (List.mem_cons_self _ _), rfl⟩

/-! ## Lemmas: the suggestion passes -/

theorem prefixPass_nil (low : String) (acc : List String) :
    prefixPass low acc [] = Sum.inr acc := rfl

theorem prefixPass_cons (low : String) (acc : List String) (n : String)
    (rest : List String) :
    prefixPass low acc (n :: rest) =
      if strHasPrefix (strToLower n) low then
        if 3 ≤ (acc ++ [n]).length then Sum.inl (formatSuggestions (acc ++ [n]))
        else prefixPass low (acc ++ [n]) rest
      else prefixPass low acc rest := rfl

theorem substrPass_nil (low : String) (acc : List String) :
    substrPass low acc [] = Sum.inr acc := rfl

theorem substrPass_cons (low : String) (acc : List String) (n : String)
    (rest : List String) :
    substrPass low acc (n :: rest) =
      if containsSub (strToLower n).data low.data && !(acc.contains n) then
        if 3 ≤ (acc ++ [n]).length then Sum.inl (formatSuggestions (acc ++ [n]))
        else substrPass low (acc ++ [n]) rest
      else substrPass low acc rest := rfl

theorem prefixPass_spec (low : String) (rest : List String) :
    ∀ acc, acc.length < 3 →
    prefixPass low acc rest =
      (if 3 ≤ (acc ++ rest.filter fun n => strHasPrefix (strToLower n) low).length
       then Sum.inl (formatSuggestions
         ((acc ++ rest.filter fun n => strHasPrefix (strToLower n) low).take 3))
       else Sum.inr (acc ++ rest.filter fun n => strHasPrefix (strToLower n) low)) := by
  induction rest with
  | nil =>
    intro acc hlen
    rw [prefixPass_nil, List.filter_nil, List.append_nil, if_neg (by omega)]
  | cons n rest1 ih =>
    intro acc hlen
    rw [prefixPass_cons, List.filter_cons]
    by_cases hp : strHasPrefix (strToLower n) low = true
    · rw [if_pos hp, if_pos hp]
      have hall : acc ++ n :: rest1.filter (fun n => strHasPrefix (strToLower n) low) =
          (acc ++ [n]) ++ rest1.filter (fun n => strHasPrefix (strToLower n) low) := by
        simp
      rw [hall]
      by_cases h3 : 3 ≤ (acc ++ [n]).length
      · rw [if_pos h3,
          if_pos (le_trans h3
            (by simp only [List.length_append, List.length_singleton]; omega)),
          List.take_append_of_le_length h3,
          List.take_of_length_le
            (by simp only [List.length_append, List.length_singleton]; omega)]
      · rw [if_neg h3, ih (acc ++ [n]) (by omega)]
    · rw [if_neg hp, if_neg hp]
      exact ih acc hlen

theorem substrPass_spec (low : String) (rest : List String) :
    ∀ acc, acc.length < 3 → rest.Nodup →
    substrPass low acc rest =
      (if 3 ≤ (acc ++ rest.filter fun n =>
          containsSub (strToLower n).data low.data && !(acc.contains n)).length
       then Sum.inl (formatSuggestions
         ((acc ++ rest.filter fun n =>
           containsSub (strToLower n).data low.data && !(acc.contains n)).take 3))
       else Sum.inr (acc ++ rest.filter fun n =>
         containsSub (strToLower n).data low.data && !(acc.contains n))) := by
  induction rest with
  | nil =>
    intro acc hlen _
    rw [substrPass_nil, List.filter_nil, List.append_nil, if_neg (by omega)]
  | cons n rest1 ih =>
    intro acc hlen hnd
    have hnotmem : n ∉ rest1 := (List.nodup_cons.1 hnd).1
    have hndtail : rest1.Nodup := (List.nodup_cons.1 hnd).2
    rw [substrPass_cons, List.filter_cons]
    by_cases hp : (containsSub (strToLower n).data low.data && !(acc.contains n)) = true
    · rw [if_pos hp, if_pos hp]
      have hfiltereq : rest1.filter (fun x =>
            containsSub (strToLower x).data low.data && !((acc ++ [n]).contains x)) =
          rest1.filter (fun x =>
            containsSub (strToLower x).data low.data && !(acc.contains x)) := by
        apply List.filter_congr
        intro x hx
        have hxne : x ≠ n := fun he => hnotmem (he ▸ hx)
        simp [hxne]
      have hall : acc ++ n :: rest1.filter (fun x =>
            containsSub (strToLower x).data low.data && !(acc.contains x)) =
          (acc ++ [n]) ++ rest1.filter (fun x =>
            containsSub (strToLower x).data low.data && !(acc.contains x)) := by
        simp
      rw [hall]
      by_cases h3 : 3 ≤ (acc ++ [n]).length
      · rw [if_pos h3,
          if_pos (le_trans h3
            (by simp only [List.length_append, List.length_singleton]; omega)),
          List.take_append_of_le_length h3,
          List.take_of_length_le
            (by simp only [List.length_append, List.length_singleton]; omega)]
      · rw [if_neg h3,
          ih (acc ++ [n]) (by omega) hndtail,
          hfiltereq]
    · rw [if_neg hp, if_neg hp]
      exact ih acc hlen hndtail

theorem formatSuggestions_eq_map (names : List String) :
    formatSuggestions names = (names.take 3).map fun n => "Did you mean \'" ++ n ++ "\'?" :=
  rfl

theorem suggestNames_spec (names : List String) (base : String) (hnd : names.Nodup) :
    suggestNames names base =
      (((names.filter fun n => strHasPrefix (strToLower n) (strToLower base)) ++
        names.filter (fun n =>
          containsSub (strToLower n).data (strToLower base).data &&
          !((names.filter fun n2 =>
            strHasPrefix (strToLower n2) (strToLower base)).contains n))).take 3).map
        (fun n => "Did you mean \'" ++ n ++ "\'?") := by
  rw [suggestNames, prefixPass_spec (strToLower base) names [] (by simp)]
  rw [List.nil_append]
  set pref := names.filter fun n => strHasPrefix (strToLower n) (strToLower base) with hpref
  set sub2 := names.filter (fun n =>
    containsSub (strToLower n).data (strToLower base).data && !(pref.contains n)) with hsub2
  by_cases h3 : 3 ≤ pref.length
  · rw [if_pos h3]
    show formatSuggestions (pref.take 3) = ((pref ++ sub2).take 3).map
      (fun n => "Did you mean \'" ++ n ++ "\'?")
    rw [formatSuggestions_eq_map, List.take_take, Nat.min_self,
      List.take_append_of_le_length h3]
  · rw [if_neg h3]
    show (match substrPass (strToLower base) pref names with
      | Sum.inl r => r
      | Sum.inr ms1 => if ms1.isEmpty then [] else formatSuggestions ms1) = _
    rw [substrPass_spec (strToLower base) names pref (by omega) hnd, ← hsub2]
    by_cases h32 : 3 ≤ (pref ++ sub2).length
    · rw [if_pos h32]
      show formatSuggestions ((pref ++ sub2).take 3) = _
      rw [formatSuggestions_eq_map, List.take_take, Nat.min_self]
    · rw [if_neg h32]
      show (if (pref ++ sub2).isEmpty then [] else formatSuggestions (pref ++ sub2)) = _
      by_cases hemp : (pref ++ sub2).isEmpty = true
      · rw [if_pos hemp]
        have hnil : pref ++ sub2 = [] := List.isEmpty_iff.1 hemp
        rw [hnil]
        rfl
      · rw [if_neg hemp]
        exact formatSuggestions_eq_map (pref ++ sub2)

/-! ## Claim C7 -/

/-- C7: suggestions are drawn from the sibling entries of the missing
target's parent directory, ranked with case-insensitive prefix matches
before case-insensitive substring matches, deduplicated, capped at three
and wrapped as "Did you mean" hints — and empty when nothing matches
(both filters empty makes the right-hand side the empty list). -/
theorem suggestions_ranked (fs : FS) (path : String)
    (hnd : ((globChildren fs (dirPath path)).map basePath).Nodup) :
    suggestFiles fs path =
      ((((globChildren fs (dirPath path)).map basePath).filter
          (fun n => strHasPrefix (strToLower n) (strToLower (basePath path))) ++
        ((globChildren fs (dirPath path)).map basePath).filter
          (fun n =>
            containsSub (strToLower n).data (strToLower (basePath path)).data &&
            !((((globChildren fs (dirPath path)).map basePath).filter
              (fun n2 => strHasPrefix (strToLower n2)
                (strToLower (basePath path)))).contains n))).take 3).map
        (fun n => "Did you mean \'" ++ n ++ "\'?") := by
  rw [suggestFiles]
  exact suggestNames_spec _ _ hnd

/-- C7 (witness): for the missing name `pres` next to `pres.md`,
`present.txt` and `zz.txt`, the two prefix matches are suggested in rank
order and the substring pass adds no duplicates. -/
theorem suggestions_ranked_witness :
    suggestFiles fsNames "/ws/pres" =
      ((((globChildren fsNames (dirPath "/ws/pres")).map basePath).filter
          (fun n => strHasPrefix (strToLower n) (strToLower (basePath "/ws/pres"))) ++
        ((globChildren fsNames (dirPath "/ws/pres")).map basePath).filter
          (fun n =>
            containsSub (strToLower n).data (strToLower (basePath "/ws/pres")).data &&
            !((((globChildren fsNames (dirPath "/ws/pres")).map basePath).filter
              (fun n2 => strHasPrefix (strToLower n2)
                (strToLower (basePath "/ws/pres")))).contains n))).take 3).map
        (fun n => "Did you mean \'" ++ n ++ "\'?") :=
  suggestions_ranked fsNames "/ws/pres" (by decide)

/-! ## Claim C10 -/

/-- C10: the weather tool builds its request URL from hardcoded
coordinate constants — the `location` argument is only validated (missing
or non-string values yield `invalid_argument`), so any two valid string
locations lead to the identical fetch, and the fetched payload cannot
depend on which valid location was supplied. -/
theorem weather_url_independent_of_location
    (args1 args2 : List (String × JVal)) (l1 l2 : String)
    (h1 : getStringArg args1 "location" = .ok l1)
    (h2 : getStringArg args2 "location" = .ok l2) :
    getWeatherRequest args1 = .fetch weatherURL ∧
    getWeatherRequest args1 = getWeatherRequest args2 ∧
    (∀ args, (args.find? fun kv => kv.1 = "location") = none →
      getWeatherRequest args = .invalidArgument ("missing argument: location")) := by
  refine ⟨?_, ?_, ?_⟩
  · rw [getWeatherRequest, h1]
  · rw [getWeatherRequest, h1, getWeatherRequest, h2]
  · intro args hmiss
    rw [getWeatherRequest, getStringArg, hmiss]
    rfl

/-- C10 (witness): two different valid locations produce the same fetch;
a missing location is `invalid_argument`. -/
theorem weather_url_independent_of_location_witness :
    getWeatherRequest [("location", .str "Paris, France")] = .fetch weatherURL ∧
    getWeatherRequest [("location", .str "Paris, France")] =
      getWeatherRequest [("location", .str "Houston, TX")] ∧
    (∀ args, (args.find? fun kv => kv.1 = "location") = none →
      getWeatherRequest args = .invalidArgument ("missing argument: location")) :=
  weather_url_independent_of_location
    [("location", .str "Paris, France")] [("location", .str "Houston, TX")]
    "Paris, France" "Houston, TX" rfl rfl

end AgentSpec

